import Mathlib

/-! The xv6 physical page allocator with reference counts (`kernel/kalloc.c`).

A shallow embedding of `kinit`, `freerange`, `kfree` and `kalloc`.

* Physical memory is a map from byte addresses to byte values.  The free
  list is the C linked list itself: `kmem.freelist` is a pointer (0 is the
  null pointer) and the `next` field of a `struct run` is the 8-byte
  little-endian word stored at the start of the free frame.
* `ref_counters.ref_counter` is a map from indices to `int` values.  C does
  not check array bounds, so the map is total: an index at or above
  `PHYSTOP / PGSIZE` stands for whatever follows the array in memory.  No
  operation of the file can overflow an `int` entry (entries are set to 0 or
  1, or decremented when greater than 1), so entries are unbounded integers.
* The globals `kmem` and `ref_counters` are kept apart from the memory map:
  they lie in the kernel image below `end`, while the frames `kfree` accepts
  lie at or above `end`.
* `panic` never returns: a call that reaches it yields `Except.error` with
  the panic message and no state.
* The model is sequential.  The spin locks do not change the state; for the
  claims about locking each operation has a second form (`kfreeT`, `kallocT`,
  `kinitT`) that computes the same result together with the events of the
  call in program order.
-/

namespace Kalloc

/-! ## Constants and memory -/

/-- Modelled from the spec: the frame size `PGSIZE` of `riscv.h`, which is not
among the sources; the spec fixes it at 4096 bytes. -/
def PGSIZE : Nat := 4096

/-- Modelled from the spec: the macro `PGROUNDUP` of `riscv.h`, which is not
among the sources; it rounds an address up to the nearest frame boundary. -/
def PGROUNDUP (a : Nat) : Nat := (a + PGSIZE - 1) / PGSIZE * PGSIZE

/-- The two layout constants the file takes from elsewhere: `end`, the first
address after the kernel image (`kernel.ld`), and `PHYSTOP`, the top of
physical memory (`memlayout.h`). -/
structure Layout where
  kend : Nat
  PHYSTOP : Nat

/-- What is assumed of the layout constants: the kernel image is not empty
and lies below `PHYSTOP`, `PHYSTOP` is a frame boundary, and the number of
table entries `PHYSTOP / PGSIZE` fits the `int` loop counter of `kinit` (so
that physical addresses are 64-bit pointers and `p + PGSIZE` never wraps). -/
def Layout.WF (L : Layout) : Prop :=
  0 < L.kend ∧ L.kend ≤ L.PHYSTOP ∧ L.PHYSTOP % PGSIZE = 0 ∧ L.PHYSTOP / PGSIZE < 2 ^ 31

instance (L : Layout) : Decidable L.WF := by
  unfold Layout.WF; infer_instance

/-- Physical memory: byte address to byte value. -/
abbrev Mem := Nat → Nat

/-- Modelled from the spec: `memset` of `string.c`, which is not among the
sources; it overwrites the `n` bytes starting at `dst` with the fill byte `c`. -/
def memset (m : Mem) (dst c n : Nat) : Mem :=
  fun x => if dst ≤ x ∧ x < dst + n then c else m x

/-- Load of a 64-bit little-endian word (a pointer) at address `a`. -/
def read64 (m : Mem) (a : Nat) : Nat :=
  m a % 256 + m (a + 1) % 256 * 256 + m (a + 2) % 256 * 256 ^ 2
    + m (a + 3) % 256 * 256 ^ 3 + m (a + 4) % 256 * 256 ^ 4
    + m (a + 5) % 256 * 256 ^ 5 + m (a + 6) % 256 * 256 ^ 6
    + m (a + 7) % 256 * 256 ^ 7

/-- Store of a 64-bit little-endian word (a pointer) at address `a`. -/
def write64 (m : Mem) (a v : Nat) : Mem :=
  fun x => if a ≤ x ∧ x < a + 8 then v / 256 ^ (x - a) % 256 else m x

/-! ## Allocator state -/

/-- The globals of `kalloc.c` together with physical memory. -/
structure KState where
  /-- The pointer `kmem.freelist`; 0 is the null pointer. -/
  freelist : Nat
  /-- The array `ref_counters.ref_counter`. -/
  ref_counter : Nat → Int
  /-- The bytes of physical memory. -/
  mem : Mem

/-- The test `kfree` makes before it panics with "kfree", negated: `pa` is
frame aligned, not below `end` and below `PHYSTOP`. -/
def validFrame (L : Layout) (pa : Nat) : Prop :=
  pa % PGSIZE = 0 ∧ L.kend ≤ pa ∧ pa < L.PHYSTOP

instance (L : Layout) (pa : Nat) : Decidable (validFrame L pa) := by
  unfold validFrame; infer_instance

/-! ## The operations -/

/-- The function `kfree(pa)`. -/
def kfree (L : Layout) (s : KState) (pa : Nat) : Except String KState :=
  if s.ref_counter (pa / PGSIZE) = 1 ∨ s.ref_counter (pa / PGSIZE) = 0 then
    if pa % PGSIZE ≠ 0 ∨ pa < L.kend ∨ pa ≥ L.PHYSTOP then
      Except.error "kfree"
    else
      -- memset(pa, 1, PGSIZE); r->next = kmem.freelist; kmem.freelist = r;
      Except.ok
        { freelist := pa
          ref_counter := Function.update s.ref_counter (pa / PGSIZE) 0
          mem := write64 (memset s.mem pa 1 PGSIZE) pa s.freelist }
  else if s.ref_counter (pa / PGSIZE) > 1 then
    Except.ok
      { s with
        ref_counter :=
          Function.update s.ref_counter (pa / PGSIZE) (s.ref_counter (pa / PGSIZE) - 1) }
  else
    Except.error "ref for page negative\n"

/-- The function `kalloc()`: the returned pointer and the state it leaves. -/
def kalloc (s : KState) : Nat × KState :=
  let r := s.freelist
  (r,
    { freelist := if r ≠ 0 then read64 s.mem r else s.freelist
      ref_counter := Function.update s.ref_counter (r / PGSIZE) 1
      mem := if r ≠ 0 then memset s.mem r 5 PGSIZE else s.mem })

/-- The loop of `freerange`: `for(; p + PGSIZE <= pa_end; p += PGSIZE) kfree(p);`. -/
def freerangeLoop (L : Layout) (pa_end : Nat) (p : Nat) (s : KState) :
    Except String KState :=
  if p + PGSIZE ≤ pa_end then
    match kfree L s p with
    | Except.ok s1 => freerangeLoop L pa_end (p + PGSIZE) s1
    | Except.error e => Except.error e
  else
    Except.ok s
termination_by pa_end - p
decreasing_by simp only [PGSIZE] at *; omega

/-- The function `freerange(pa_start, pa_end)`. -/
def freerange (L : Layout) (s : KState) (pa_start pa_end : Nat) : Except String KState :=
  freerangeLoop L pa_end (PGROUNDUP pa_start) s

/-- The first loop of `kinit`:
`for(int i=0;i<PHYSTOP/PGSIZE;i++) ref_counters.ref_counter[i]=0;`. -/
def zeroLoop (n : Nat) (i : Nat) (rc : Nat → Int) : Nat → Int :=
  if i < n then zeroLoop n (i + 1) (Function.update rc i 0) else rc
termination_by n - i

/-- The function `kinit()`. -/
def kinit (L : Layout) (s : KState) : Except String KState :=
  freerange L { s with ref_counter := zeroLoop (L.PHYSTOP / PGSIZE) 0 s.ref_counter }
    L.kend L.PHYSTOP

/-! ## The free list as a sequence of frames -/

/-- The linked list that starts at pointer `p` holds exactly the nodes `l`, in
order, and ends with the null pointer. -/
def ListRep (m : Mem) : Nat → List Nat → Prop
  | p, [] => p = 0
  | p, a :: l => p = a ∧ a ≠ 0 ∧ ListRep m (read64 m a) l

instance ListRep.dec (m : Mem) : (p : Nat) → (l : List Nat) → Decidable (ListRep m p l)
  | p, [] => by unfold ListRep; infer_instance
  | p, a :: l => by
      unfold ListRep
      have := ListRep.dec m (read64 m a) l
      infer_instance

/-- The free list of state `s` is the sequence `l` of frames: the list that
starts at the 64-bit pointer `kmem.freelist` holds the nodes `l`, each of them
frame aligned. -/
def FreeList (s : KState) (l : List Nat) : Prop :=
  ListRep s.mem s.freelist l ∧ s.freelist < 2 ^ 64 ∧ ∀ a ∈ l, a % PGSIZE = 0

instance (s : KState) (l : List Nat) : Decidable (FreeList s l) := by
  unfold FreeList; infer_instance

/-- The outcome is a panic. -/
def isPanic (r : Except String KState) : Bool :=
  match r with
  | Except.ok _ => false
  | Except.error _ => true

/-- The state of a normal outcome, and `d` for a panic. -/
def stateOr (r : Except String KState) (d : KState) : KState :=
  match r with
  | Except.ok s => s
  | Except.error _ => d

/-- Calling `kfree(pa)` `n` times in a row. -/
def kfreeN (L : Layout) (pa : Nat) : Nat → KState → Except String KState
  | 0, s => Except.ok s
  | k + 1, s =>
    match kfree L s pa with
    | Except.ok s1 => kfreeN L pa k s1
    | Except.error e => Except.error e

/-- The frames `p`, `p + PGSIZE`, ... (`n` of them), in rising order. -/
def framesFrom (p : Nat) : Nat → List Nat
  | 0 => []
  | n + 1 => p :: framesFrom (p + PGSIZE) n

/-- The states the allocator reaches from boot state `s0`: the state `kinit()`
leaves, and from a reached state the state a call of `kalloc()` leaves and the
state a call of `kfree(pa)` by a matching caller leaves, that is for a valid
frame address `pa` whose reference count is at least 1 at the call. -/
inductive Reachable (L : Layout) (s0 : KState) : KState → Prop
  | boot (s : KState) : kinit L s0 = Except.ok s → Reachable L s0 s
  | alloc (s : KState) : Reachable L s0 s → Reachable L s0 (kalloc s).2
  | free (s s1 : KState) (pa : Nat) : Reachable L s0 s → validFrame L pa →
      1 ≤ s.ref_counter (pa / PGSIZE) → kfree L s pa = Except.ok s1 → Reachable L s0 s1

/-- The free list is `l`, and a valid frame is on it exactly when its
reference count is 0. -/
def FreeInv (L : Layout) (s : KState) (l : List Nat) : Prop :=
  FreeList s l ∧ ∀ p, validFrame L p → (p ∈ l ↔ s.ref_counter (p / PGSIZE) = 0)

/-- Executions without sharing, from the state `si` that `kinit()` left: calls
of `kalloc()`, successful or failed, and calls of `kfree(pa)` on a frame `pa`
that `kalloc()` returned and that has not been released since.  The list holds
the frames returned by `kalloc()` and not yet released. -/
inductive Run (L : Layout) (si : KState) : KState → List Nat → Prop
  | start : Run L si si []
  | allocOk (s : KState) (out : List Nat) : Run L si s out → (kalloc s).1 ≠ 0 →
      Run L si (kalloc s).2 ((kalloc s).1 :: out)
  | allocFail (s : KState) (out : List Nat) : Run L si s out → (kalloc s).1 = 0 →
      Run L si (kalloc s).2 out
  | free (s s1 : KState) (out : List Nat) (pa : Nat) : Run L si s out → pa ∈ out →
      kfree L s pa = Except.ok s1 → Run L si s1 (out.erase pa)

/-- The states reached from boot state `s0` by `kinit()` followed by calls of
`kalloc()` and calls of `kfree(pa)` with any argument `pa` (a call that
panics has no state after it). -/
inductive ReachableAny (L : Layout) (s0 : KState) : KState → Prop
  | boot (s : KState) : kinit L s0 = Except.ok s → ReachableAny L s0 s
  | alloc (s : KState) : ReachableAny L s0 s → ReachableAny L s0 (kalloc s).2
  | free (s s1 : KState) (pa : Nat) : ReachableAny L s0 s →
      kfree L s pa = Except.ok s1 → ReachableAny L s0 s1

/-- The invariant of executions without sharing: the free list is `l`, its
frames are valid and have count 0, the outstanding frames `out` are distinct,
valid and have count 1, and together they are `n` frames. -/
def RunInv (L : Layout) (n : Nat) (s : KState) (out l : List Nat) : Prop :=
  FreeList s l ∧ (∀ a ∈ l, validFrame L a ∧ s.ref_counter (a / PGSIZE) = 0) ∧
  out.Nodup ∧ (∀ a ∈ out, validFrame L a ∧ s.ref_counter (a / PGSIZE) = 1) ∧
  out.length + l.length = n

/-! ## Lock events

Each operation is given a second form that also returns the sequence of events
of the call: the lock operations, the accesses to the table, the accesses to
the free list and the fills of a frame, in program order. -/

/-- The two spin locks of the file: `kmem.lock` and `ref_counters.lock`. -/
inductive Lock
  | kmem
  | refc

/-- The events of a call. -/
inductive Event
  /-- A call `initlock(&l, ...)`. -/
  | initlock (l : Lock)
  /-- A call `acquire(&l)`. -/
  | acquire (l : Lock)
  /-- A call `release(&l)`. -/
  | release (l : Lock)
  /-- A read of `ref_counters.ref_counter[i]`. -/
  | readRef (i : Nat)
  /-- A write of `ref_counters.ref_counter[i]`. -/
  | writeRef (i : Nat)
  /-- A read of `kmem.freelist`. -/
  | readHead
  /-- A write of `kmem.freelist`. -/
  | writeHead
  /-- A read of `r->next` for the frame `r = a`. -/
  | readLink (a : Nat)
  /-- A write of `r->next` for the frame `r = a`. -/
  | writeLink (a : Nat)
  /-- A `memset` over the frame at `a`. -/
  | fill (a : Nat)

/-- Which of the two locks are held. -/
structure Held where
  kmem : Bool
  refc : Bool

/-- No lock is held. -/
def Held.free : Held := { kmem := false, refc := false }

/-- The locks held after an event. -/
def Held.step (h : Held) : Event → Held
  | Event.initlock Lock.kmem => { h with kmem := false }
  | Event.initlock Lock.refc => { h with refc := false }
  | Event.acquire Lock.kmem => { h with kmem := true }
  | Event.acquire Lock.refc => { h with refc := true }
  | Event.release Lock.kmem => { h with kmem := false }
  | Event.release Lock.refc => { h with refc := false }
  | _ => h

/-- The locks held after a sequence of events. -/
def heldAfter (h : Held) : List Event → Held
  | [] => h
  | e :: tr => heldAfter (h.step e) tr

/-- Every event of the sequence satisfies `ok`, given the locks held when the
event happens. -/
def traceOk (ok : Held → Event → Bool) (h : Held) : List Event → Bool
  | [] => true
  | e :: tr => ok h e && traceOk ok (h.step e) tr

/-- A read or a write of a table entry happens with `ref_counters.lock` held. -/
def refAccessLocked (h : Held) : Event → Bool
  | Event.readRef _ => h.refc
  | Event.writeRef _ => h.refc
  | _ => true

/-- A write of a table entry happens with `ref_counters.lock` held. -/
def refWriteLocked (h : Held) : Event → Bool
  | Event.writeRef _ => h.refc
  | _ => true

/-- A write of a table entry happens with `kmem.lock` held and
`ref_counters.lock` not held. -/
def refWriteUnderKmem (h : Held) : Event → Bool
  | Event.writeRef _ => h.kmem && !h.refc
  | _ => true

/-- The lock `ref_counters.lock` is not held at a mutation of the free list
(a write of the head or of a link), it is not acquired while `kmem.lock` is
held, and `kmem.lock` is not acquired while it is held. -/
def refLockApart (h : Held) : Event → Bool
  | Event.writeHead => !h.refc
  | Event.writeLink _ => !h.refc
  | Event.acquire Lock.kmem => !h.refc
  | Event.acquire Lock.refc => !h.kmem
  | _ => true

/-- No lock is acquired while the other is held, and after the event the two
locks are not both held. -/
def noNesting (h : Held) (e : Event) : Bool :=
  (match e with
    | Event.acquire Lock.kmem => !h.refc
    | Event.acquire Lock.refc => !h.kmem
    | _ => true) && !((h.step e).kmem && (h.step e).refc)

/-- The reads of the entry made by the test of line 66,
`ref_counter[i]==1 || ref_counter[i]==0`: the second operand is evaluated only
when the first is false. -/
def testReads (s : KState) (i : Nat) : List Event :=
  if s.ref_counter i = 1 then [Event.readRef i] else [Event.readRef i, Event.readRef i]

/-- The function `kfree(pa)` with the events of the call. -/
def kfreeT (L : Layout) (s : KState) (pa : Nat) : Except String KState × List Event :=
  if s.ref_counter (pa / PGSIZE) = 1 ∨ s.ref_counter (pa / PGSIZE) = 0 then
    if pa % PGSIZE ≠ 0 ∨ pa < L.kend ∨ pa ≥ L.PHYSTOP then
      (Except.error "kfree", testReads s (pa / PGSIZE))
    else
      (Except.ok
        { freelist := pa
          ref_counter := Function.update s.ref_counter (pa / PGSIZE) 0
          mem := write64 (memset s.mem pa 1 PGSIZE) pa s.freelist },
        testReads s (pa / PGSIZE) ++
          [Event.fill pa, Event.acquire Lock.kmem, Event.readHead, Event.writeLink pa,
            Event.writeHead, Event.release Lock.kmem, Event.acquire Lock.refc,
            Event.writeRef (pa / PGSIZE), Event.release Lock.refc])
  else if s.ref_counter (pa / PGSIZE) > 1 then
    (Except.ok
      { s with
        ref_counter :=
          Function.update s.ref_counter (pa / PGSIZE) (s.ref_counter (pa / PGSIZE) - 1) },
      testReads s (pa / PGSIZE) ++
        [Event.readRef (pa / PGSIZE), Event.acquire Lock.refc, Event.readRef (pa / PGSIZE),
          Event.writeRef (pa / PGSIZE), Event.release Lock.refc])
  else
    (Except.error "ref for page negative\n",
      testReads s (pa / PGSIZE) ++ [Event.readRef (pa / PGSIZE)])

/-- The function `kalloc()` with the events of the call. -/
def kallocT (s : KState) : (Nat × KState) × List Event :=
  let r := s.freelist
  ((r,
    { freelist := if r ≠ 0 then read64 s.mem r else s.freelist
      ref_counter := Function.update s.ref_counter (r / PGSIZE) 1
      mem := if r ≠ 0 then memset s.mem r 5 PGSIZE else s.mem }),
    [Event.acquire Lock.kmem, Event.readHead] ++
      (if r ≠ 0 then [Event.readLink r, Event.writeHead] else []) ++
      [Event.writeRef (r / PGSIZE), Event.release Lock.kmem] ++
      (if r ≠ 0 then [Event.fill r] else []))

/-- The loop of `freerange` with the events of the calls of `kfree`. -/
def freerangeLoopT (L : Layout) (pa_end : Nat) (p : Nat) (s : KState) :
    Except String KState × List Event :=
  if p + PGSIZE ≤ pa_end then
    match kfreeT L s p with
    | (Except.ok s1, tr) =>
      ((freerangeLoopT L pa_end (p + PGSIZE) s1).1,
        tr ++ (freerangeLoopT L pa_end (p + PGSIZE) s1).2)
    | (Except.error e, tr) => (Except.error e, tr)
  else
    (Except.ok s, [])
termination_by pa_end - p
decreasing_by all_goals (simp only [PGSIZE] at *; omega)

/-- The function `freerange(pa_start, pa_end)` with its events. -/
def freerangeT (L : Layout) (s : KState) (pa_start pa_end : Nat) :
    Except String KState × List Event :=
  freerangeLoopT L pa_end (PGROUNDUP pa_start) s

/-- The first loop of `kinit` with its events. -/
def zeroLoopT (n : Nat) (i : Nat) (rc : Nat → Int) : (Nat → Int) × List Event :=
  if i < n then
    ((zeroLoopT n (i + 1) (Function.update rc i 0)).1,
      Event.writeRef i :: (zeroLoopT n (i + 1) (Function.update rc i 0)).2)
  else (rc, [])
termination_by n - i

/-- The function `kinit()` with its events (the console lock taken by `printf`
is not one of the two locks and is left out). -/
def kinitT (L : Layout) (s : KState) : Except String KState × List Event :=
  ((freerangeT L
      { s with ref_counter := (zeroLoopT (L.PHYSTOP / PGSIZE) 0 s.ref_counter).1 }
      L.kend L.PHYSTOP).1,
    [Event.initlock Lock.refc, Event.acquire Lock.refc] ++
      (zeroLoopT (L.PHYSTOP / PGSIZE) 0 s.ref_counter).2 ++
      [Event.release Lock.refc, Event.initlock Lock.kmem] ++
      (freerangeT L
        { s with ref_counter := (zeroLoopT (L.PHYSTOP / PGSIZE) 0 s.ref_counter).1 }
        L.kend L.PHYSTOP).2)

/-! ## Concrete layouts and states used to evaluate the code -/

/-- A small layout: the kernel image ends inside the second frame and memory
ends after the eighth. -/
def smallLayout : Layout := { kend := 0x1800, PHYSTOP := 0x8000 }

/-- A state with zeroed table and memory whose free list is empty. -/
def emptyState : KState :=
  { freelist := 0, ref_counter := fun _ => 0, mem := fun _ => 0 }

/-- A state with zeroed table and memory whose free list holds the one frame
`0x2000`. -/
def oneFreeState : KState :=
  { freelist := 0x2000, ref_counter := fun _ => 0, mem := fun _ => 0 }

/-- A state with an empty free list in which frame `0x2000` has `n` owners. -/
def ownedState (n : Int) : KState :=
  { freelist := 0, ref_counter := fun i => if i = 2 then n else 0, mem := fun _ => 0 }

/-- A state with zeroed memory in which frame `0x2000` has reference count 1
and is also the one node of the free list. -/
def listedOwnedState : KState :=
  { freelist := 0x2000, ref_counter := fun i => if i = 2 then 1 else 0, mem := fun _ => 0 }

/-- The state `kfree(0x2000)` leaves from `listedOwnedState`. -/
def listedFreedState : KState :=
  { freelist := 0x2000
    ref_counter := Function.update listedOwnedState.ref_counter 2 0
    mem := write64 (memset listedOwnedState.mem 0x2000 1 PGSIZE) 0x2000 0x2000 }

/-- A state with zeroed memory whose free list holds the one frame `0x2000` and
in which frame `0x3000` has one owner. -/
def ownedListState : KState :=
  { freelist := 0x2000, ref_counter := fun i => if i = 3 then 1 else 0, mem := fun _ => 0 }

/-- A boot state for the small layout, whose table has the 8 entries 0 to 7:
the table and the free list are zeroed, and the `int` that follows the table
in memory (index 8) holds -1. -/
def negTailState : KState :=
  { freelist := 0, ref_counter := fun i => if i = 8 then -1 else 0, mem := fun _ => 0 }

/-- The state `kinit()` leaves on the small layout, booting from `negTailState`. -/
def negTailBooted : KState := stateOr (kinit smallLayout negTailState) negTailState

/-- The state `kinit()` leaves on the small layout, booting from `emptyState`. -/
def bootedState : KState := stateOr (kinit smallLayout emptyState) emptyState

/-! ## Memory lemmas -/

theorem memset_outside (m : Mem) (dst c n x : Nat) (h : x < dst ∨ dst + n ≤ x) :
    memset m dst c n x = m x := by
  unfold memset
  rw [if_neg]
  omega

theorem write64_outside (m : Mem) (a v x : Nat) (h : x < a ∨ a + 8 ≤ x) :
    write64 m a v x = m x := by
  unfold write64
  rw [if_neg]
  omega

theorem read64_congr (m m1 : Mem) (a : Nat)
    (h : ∀ x, a ≤ x → x < a + 8 → m1 x = m x) : read64 m1 a = read64 m a := by
  unfold read64
  rw [h a (by omega) (by omega), h (a + 1) (by omega) (by omega),
    h (a + 2) (by omega) (by omega), h (a + 3) (by omega) (by omega),
    h (a + 4) (by omega) (by omega), h (a + 5) (by omega) (by omega),
    h (a + 6) (by omega) (by omega), h (a + 7) (by omega) (by omega)]

theorem read64_lt (m : Mem) (a : Nat) : read64 m a < 2 ^ 64 := by
  unfold read64
  omega

theorem read64_write64 (m : Mem) (a v : Nat) : read64 (write64 m a v) a = v % 2 ^ 64 := by
  unfold read64 write64
  simp
  omega

theorem PHYSTOP_le (L : Layout) (hL : L.WF) : L.PHYSTOP ≤ 2 ^ 64 := by
  obtain ⟨_, _, _, h⟩ := hL
  unfold PGSIZE at h
  omega

/-! ## Linked-list lemmas -/

theorem ListRep_congr (m m1 : Mem) : ∀ (l : List Nat) (p : Nat), ListRep m p l →
    (∀ a ∈ l, ∀ x, a ≤ x → x < a + 8 → m1 x = m x) → ListRep m1 p l := by
  intro l
  induction l with
  | nil => intro p h _; exact h
  | cons a l ih =>
    intro p h hm
    obtain ⟨h1, h2, h3⟩ := h
    refine ⟨h1, h2, ?_⟩
    rw [read64_congr m m1 a (hm a (List.mem_cons_self a l))]
    exact ih _ h3 (fun b hb => hm b (List.mem_cons_of_mem a hb))

theorem ListRep_unique (m : Mem) : ∀ (l1 l2 : List Nat) (p : Nat),
    ListRep m p l1 → ListRep m p l2 → l1 = l2 := by
  intro l1
  induction l1 with
  | nil =>
    intro l2 p h1 h2
    cases l2 with
    | nil => rfl
    | cons b l2 =>
      obtain ⟨hb, hb0, _⟩ := h2
      have h0 : p = 0 := h1
      omega
  | cons a l1 ih =>
    intro l2 p h1 h2
    obtain ⟨ha, ha0, h1t⟩ := h1
    cases l2 with
    | nil =>
      have h0 : p = 0 := h2
      omega
    | cons b l2 =>
      obtain ⟨hb, _, h2t⟩ := h2
      have hab : a = b := by omega
      subst hab
      rw [ih l2 _ h1t h2t]

theorem ListRep_suffix (m : Mem) : ∀ (l1 l2 : List Nat) (p : Nat),
    ListRep m p (l1 ++ l2) → ∃ q, ListRep m q l2 := by
  intro l1
  induction l1 with
  | nil => intro l2 p h; exact ⟨p, h⟩
  | cons a l1 ih =>
    intro l2 p h
    obtain ⟨_, _, ht⟩ := h
    exact ih l2 _ ht

theorem ListRep_not_mem_tail (m : Mem) (a p : Nat) (l : List Nat)
    (h : ListRep m p (a :: l)) : a ∉ l := by
  intro hmem
  obtain ⟨l1, l2, hl⟩ := List.append_of_mem hmem
  obtain ⟨_, _, ht⟩ := h
  rw [hl] at ht
  obtain ⟨q, hq⟩ := ListRep_suffix m l1 (a :: l2) _ ht
  obtain ⟨_, _, hq2⟩ := hq
  have heq := ListRep_unique m _ _ _ ht hq2
  have hlen := congrArg List.length heq
  simp at hlen
  omega

theorem ListRep_nodup (m : Mem) : ∀ (l : List Nat) (p : Nat), ListRep m p l → l.Nodup := by
  intro l
  induction l with
  | nil => intro p _; exact List.nodup_nil
  | cons a l ih =>
    intro p h
    refine List.nodup_cons.mpr ⟨ListRep_not_mem_tail m a p l h, ?_⟩
    obtain ⟨_, _, ht⟩ := h
    exact ih _ ht

theorem FreeList_nodup (s : KState) (l : List Nat) (h : FreeList s l) : l.Nodup :=
  ListRep_nodup s.mem l s.freelist h.1

/-- Two distinct frame-aligned addresses: the link of one lies outside the
frame of the other. -/
theorem link_outside_frame (a b x : Nat) (ha : a % PGSIZE = 0) (hb : b % PGSIZE = 0)
    (hne : a ≠ b) (h1 : a ≤ x) (h2 : x < a + 8) : x < b ∨ b + PGSIZE ≤ x := by
  unfold PGSIZE at *
  omega

theorem index_ne_of_aligned (a b : Nat) (ha : a % PGSIZE = 0) (hb : b % PGSIZE = 0)
    (hne : a ≠ b) : a / PGSIZE ≠ b / PGSIZE := by
  unfold PGSIZE at *
  omega

/-- Overwriting a whole frame that is not a node of the list keeps the list. -/
theorem ListRep_memset (m : Mem) (l : List Nat) (p b c : Nat) (h : ListRep m p l)
    (hal : ∀ a ∈ l, a % PGSIZE = 0) (hb : b % PGSIZE = 0) (hnot : b ∉ l) :
    ListRep (memset m b c PGSIZE) p l := by
  refine ListRep_congr m _ l p h ?_
  intro a ha x h1 h2
  have hne : a ≠ b := fun e => hnot (e ▸ ha)
  exact memset_outside m b c PGSIZE x (link_outside_frame a b x (hal a ha) hb hne h1 h2)

/-- Pushing a frame that is not a node of the list, the way `kfree` does. -/
theorem FreeList_push (s : KState) (l : List Nat) (pa : Nat) (rc : Nat → Int)
    (h : FreeList s l) (hpa : pa % PGSIZE = 0) (h0 : pa ≠ 0) (hlt : pa < 2 ^ 64)
    (hnot : pa ∉ l) :
    FreeList
      { freelist := pa, ref_counter := rc,
        mem := write64 (memset s.mem pa 1 PGSIZE) pa s.freelist } (pa :: l) := by
  obtain ⟨hrep, hfl, hal⟩ := h
  refine ⟨⟨rfl, h0, ?_⟩, hlt, ?_⟩
  · show ListRep _ (read64 (write64 (memset s.mem pa 1 PGSIZE) pa s.freelist) pa) l
    rw [read64_write64, Nat.mod_eq_of_lt hfl]
    refine ListRep_congr (memset s.mem pa 1 PGSIZE) _ l _
      (ListRep_memset s.mem l _ pa 1 hrep hal hpa hnot) ?_
    intro a ha x h1 h2
    have hne : a ≠ pa := fun e => hnot (e ▸ ha)
    have := link_outside_frame a pa x (hal a ha) hpa hne h1 h2
    exact write64_outside _ pa _ x (by unfold PGSIZE at this; omega)
  · intro a ha
    rcases List.mem_cons.mp ha with e | e
    · rw [e]; exact hpa
    · exact hal a e

/-- Popping the head, the way `kalloc` does. -/
theorem FreeList_pop (s : KState) (h : Nat) (t : List Nat) (hl : FreeList s (h :: t)) :
    FreeList (kalloc s).2 t := by
  obtain ⟨hrep, hfl, hal⟩ := hl
  have hnot : h ∉ t := ListRep_not_mem_tail s.mem h s.freelist t hrep
  obtain ⟨hh, hh0, ht⟩ := hrep
  have hne : s.freelist ≠ 0 := by omega
  refine ⟨?_, ?_, fun a ha => hal a (List.mem_cons_of_mem h ha)⟩
  · show ListRep (if s.freelist ≠ 0 then memset s.mem s.freelist 5 PGSIZE else s.mem)
      (if s.freelist ≠ 0 then read64 s.mem s.freelist else s.freelist) t
    rw [if_pos hne, if_pos hne, hh]
    exact ListRep_memset s.mem t _ h 5 ht (fun a ha => hal a (List.mem_cons_of_mem h ha))
      (hal h (List.mem_cons_self h t)) hnot
  · show (if s.freelist ≠ 0 then read64 s.mem s.freelist else s.freelist) < 2 ^ 64
    rw [if_pos hne]
    exact read64_lt _ _

/-! ## Single calls of `kfree` and `kalloc` -/

theorem kfree_free_branch (L : Layout) (s : KState) (pa : Nat)
    (hc : s.ref_counter (pa / PGSIZE) = 1 ∨ s.ref_counter (pa / PGSIZE) = 0)
    (hv : validFrame L pa) :
    kfree L s pa = Except.ok
      { freelist := pa
        ref_counter := Function.update s.ref_counter (pa / PGSIZE) 0
        mem := write64 (memset s.mem pa 1 PGSIZE) pa s.freelist } := by
  obtain ⟨h1, h2, h3⟩ := hv
  unfold kfree
  rw [if_pos hc, if_neg]
  omega

theorem kfree_invalid_branch (L : Layout) (s : KState) (pa : Nat)
    (hc : s.ref_counter (pa / PGSIZE) = 1 ∨ s.ref_counter (pa / PGSIZE) = 0)
    (hv : ¬ validFrame L pa) : kfree L s pa = Except.error "kfree" := by
  unfold validFrame at hv
  unfold kfree
  rw [if_pos hc, if_pos]
  omega

theorem kfree_shared_branch (L : Layout) (s : KState) (pa : Nat)
    (hc : 1 < s.ref_counter (pa / PGSIZE)) :
    kfree L s pa = Except.ok
      { s with
        ref_counter :=
          Function.update s.ref_counter (pa / PGSIZE) (s.ref_counter (pa / PGSIZE) - 1) } := by
  unfold kfree
  rw [if_neg (by omega), if_pos hc]

theorem kalloc_empty (s : KState) (h : s.freelist = 0) :
    kalloc s = (0, { s with ref_counter := Function.update s.ref_counter 0 1 }) := by
  obtain ⟨fl, rc, m⟩ := s
  simp only at h
  subst h
  simp [kalloc]

/-- After `k` calls on a frame with more than `k` owners only the count has
moved. -/
theorem kfreeN_shared (L : Layout) (pa : Nat) : ∀ (k : Nat) (s : KState),
    (k : Int) < s.ref_counter (pa / PGSIZE) →
    kfreeN L pa k s = Except.ok
      { s with
        ref_counter :=
          Function.update s.ref_counter (pa / PGSIZE) (s.ref_counter (pa / PGSIZE) - k) } := by
  intro k
  induction k with
  | zero =>
    intro s _
    simp [kfreeN]
  | succ k ih =>
    intro s hk
    have hgt : 1 < s.ref_counter (pa / PGSIZE) := by push_cast at hk; omega
    simp only [kfreeN]
    rw [kfree_shared_branch L s pa hgt]
    simp only
    rw [ih]
    · simp only [Function.update_same, Function.update_idem]
      have e : s.ref_counter (pa / PGSIZE) - 1 - (k : Int)
          = s.ref_counter (pa / PGSIZE) - ((k + 1 : Nat) : Int) := by
        push_cast
        omega
      rw [e]
    · show (k : Int) < Function.update s.ref_counter (pa / PGSIZE)
        (s.ref_counter (pa / PGSIZE) - 1) (pa / PGSIZE)
      rw [Function.update_same]
      push_cast at hk
      omega

theorem kfreeN_succ_of_ok (L : Layout) (pa : Nat) : ∀ (k : Nat) (s s1 : KState),
    kfreeN L pa k s = Except.ok s1 → kfreeN L pa (k + 1) s = kfree L s1 pa := by
  intro k
  induction k with
  | zero =>
    intro s s1 h
    simp only [kfreeN, Except.ok.injEq] at h
    subst h
    simp only [kfreeN]
    cases kfree L s pa <;> rfl
  | succ k ih =>
    intro s s1 h
    simp only [kfreeN] at h
    rw [kfreeN]
    cases hk : kfree L s pa with
    | error e => rw [hk] at h; simp at h
    | ok s2 =>
      rw [hk] at h
      simp only at h ⊢
      exact ih s2 s1 h

/-! ## The loops of `kinit` and `freerange` -/

theorem zeroLoop_apply (n : Nat) : ∀ (d i : Nat) (rc : Nat → Int), n - i = d →
    ∀ j, zeroLoop n i rc j = if i ≤ j ∧ j < n then 0 else rc j := by
  intro d
  induction d with
  | zero =>
    intro i rc hd j
    rw [zeroLoop, if_neg (by omega), if_neg (by omega)]
  | succ d ih =>
    intro i rc hd j
    rw [zeroLoop, if_pos (by omega), ih (i + 1) _ (by omega) j]
    by_cases hj : j = i
    · subst hj
      rw [if_neg (by omega), Function.update_same]
      by_cases h2 : j < n
      · rw [if_pos ⟨le_refl j, h2⟩]
      · omega
    · rw [Function.update_noteq hj]
      by_cases h3 : i + 1 ≤ j ∧ j < n
      · rw [if_pos h3, if_pos (by omega)]
      · rw [if_neg h3, if_neg (by omega)]

theorem framesFrom_length (n : Nat) : ∀ p, (framesFrom p n).length = n := by
  induction n with
  | zero => intro p; rfl
  | succ n ih => intro p; simp [framesFrom, ih]

theorem mem_framesFrom (n : Nat) : ∀ p q, q ∈ framesFrom p n ↔
    ∃ k, k < n ∧ q = p + k * PGSIZE := by
  induction n with
  | zero => intro p q; simp [framesFrom]
  | succ n ih =>
    intro p q
    simp only [framesFrom, List.mem_cons, ih]
    constructor
    · rintro (h | ⟨k, hk, hq⟩)
      · exact ⟨0, by omega, by omega⟩
      · exact ⟨k + 1, by omega, by rw [hq]; ring⟩
    · rintro ⟨k, hk, hq⟩
      cases k with
      | zero => left; omega
      | succ k => right; exact ⟨k, by omega, by rw [hq]; ring⟩

/-- The frames `freerange` visits are the aligned frames that fit in the range. -/
theorem mem_framesFrom_range (p e q : Nat) (hp : p % PGSIZE = 0) :
    q ∈ framesFrom p ((e - p) / PGSIZE) ↔ q % PGSIZE = 0 ∧ p ≤ q ∧ q + PGSIZE ≤ e := by
  rw [mem_framesFrom]
  unfold PGSIZE at *
  constructor
  · rintro ⟨k, hk, hq⟩
    omega
  · rintro ⟨h1, h2, h3⟩
    exact ⟨(q - p) / 4096, by omega, by omega⟩

theorem framesFrom_nodup (n : Nat) : ∀ p, (framesFrom p n).Nodup := by
  induction n with
  | zero => intro p; exact List.nodup_nil
  | succ n ih =>
    intro p
    refine List.nodup_cons.mpr ⟨?_, ih _⟩
    rw [mem_framesFrom]
    rintro ⟨k, _, hq⟩
    unfold PGSIZE at hq
    omega

/-- The loop of `freerange` from an aligned `p` with `n` frames left: it
does not panic, pushes the frames one after the other and keeps a zeroed table
zeroed. -/
theorem freerangeLoop_spec (L : Layout) (hL : L.WF) (pa_end : Nat)
    (hend : pa_end ≤ L.PHYSTOP) : ∀ (n p : Nat) (s : KState) (l : List Nat),
    p % PGSIZE = 0 → L.kend ≤ p → p + n * PGSIZE ≤ pa_end →
    pa_end < p + (n + 1) * PGSIZE →
    (∀ i, i < L.PHYSTOP / PGSIZE → s.ref_counter i = 0) →
    FreeList s l → (∀ a ∈ l, a < p ∨ pa_end < a + PGSIZE) →
    ∃ s1, freerangeLoop L pa_end p s = Except.ok s1 ∧
      FreeList s1 ((framesFrom p n).reverse ++ l) ∧
      (∀ i, i < L.PHYSTOP / PGSIZE → s1.ref_counter i = 0) := by
  intro n
  induction n with
  | zero =>
    intro p s l _ _ _ hhi hz hl _
    refine ⟨s, ?_, by simpa [framesFrom] using hl, hz⟩
    rw [freerangeLoop, if_neg (by omega)]
  | succ n ih =>
    intro p s l hp hlo hfit hhi hz hl hd
    have htop := PHYSTOP_le L hL
    obtain ⟨hk0, _, _, _⟩ := hL
    have hpos : 0 < PGSIZE := by decide
    have hstep : p + PGSIZE ≤ pa_end := by
      have : p + (n + 1) * PGSIZE = p + PGSIZE + n * PGSIZE := by ring
      omega
    have hidx : p / PGSIZE < L.PHYSTOP / PGSIZE := by
      unfold PGSIZE at *
      omega
    have hv : validFrame L p := ⟨hp, hlo, by omega⟩
    have hnot : p ∉ l := by
      intro hmem
      have := hd p hmem
      omega
    have hk := kfree_free_branch L s p (Or.inr (hz _ hidx)) hv
    have hpush := FreeList_push s l p (Function.update s.ref_counter (p / PGSIZE) 0)
      hl hp (by omega) (by omega) hnot
    obtain ⟨s1, hs1, hfl, hz1⟩ := ih (p + PGSIZE) _ (p :: l)
      (by unfold PGSIZE at *; omega) (by omega)
      (by have : p + (n + 1) * PGSIZE = p + PGSIZE + n * PGSIZE := by ring
          omega)
      (by have : p + (n + 1 + 1) * PGSIZE = p + PGSIZE + (n + 1) * PGSIZE := by ring
          omega)
      (by
        intro i hi
        show Function.update s.ref_counter (p / PGSIZE) 0 i = 0
        by_cases hip : i = p / PGSIZE
        · rw [hip, Function.update_same]
        · rw [Function.update_noteq hip]; exact hz i hi)
      hpush
      (by
        intro a ha
        rcases List.mem_cons.mp ha with e | e
        · left; unfold PGSIZE; omega
        · rcases hd a e with h | h
          · left; omega
          · right; exact h)
    refine ⟨s1, ?_, ?_, hz1⟩
    · rw [freerangeLoop, if_pos hstep, hk]
      exact hs1
    · simpa [framesFrom, List.append_assoc] using hfl

theorem PGROUNDUP_aligned (a : Nat) : PGROUNDUP a % PGSIZE = 0 := by
  unfold PGROUNDUP
  exact Nat.mul_mod_left _ _

theorem PGROUNDUP_ge (a : Nat) : a ≤ PGROUNDUP a := by
  unfold PGROUNDUP PGSIZE
  omega

theorem PGROUNDUP_le_of_aligned (a b : Nat) (hab : a ≤ b) (hb : b % PGSIZE = 0) :
    PGROUNDUP a ≤ b := by
  unfold PGROUNDUP PGSIZE at *
  omega

/-- What `freerange` does on a range above the kernel and inside physical
memory, starting from a zeroed table and a free list `l0` that holds none of
the frames of the range. -/
theorem freerange_spec (L : Layout) (s : KState) (pa_start pa_end : Nat) (l0 : List Nat)
    (hL : L.WF) (h1 : L.kend ≤ pa_start) (h2 : pa_end ≤ L.PHYSTOP)
    (h3 : PGROUNDUP pa_start ≤ pa_end)
    (hz : ∀ i, i < L.PHYSTOP / PGSIZE → s.ref_counter i = 0) (hl : FreeList s l0)
    (hd : ∀ a ∈ l0, a < PGROUNDUP pa_start ∨ pa_end < a + PGSIZE) :
    ∃ s1, freerange L s pa_start pa_end = Except.ok s1 ∧
      FreeList s1
        ((framesFrom (PGROUNDUP pa_start)
          ((pa_end - PGROUNDUP pa_start) / PGSIZE)).reverse ++ l0) ∧
      (∀ i, i < L.PHYSTOP / PGSIZE → s1.ref_counter i = 0) := by
  have hge := PGROUNDUP_ge pa_start
  have hal := PGROUNDUP_aligned pa_start
  unfold freerange
  refine freerangeLoop_spec L hL pa_end h2 _ _ s l0 hal (by omega) ?_ ?_ hz hl hd
  · unfold PGSIZE at *; omega
  · unfold PGSIZE at *; omega

/-- The state `kinit` leaves when the boot state has an empty free list. -/
theorem kinit_spec (L : Layout) (s : KState) (hL : L.WF) (h0 : s.freelist = 0) :
    ∃ s1, kinit L s = Except.ok s1 ∧
      FreeList s1
        (framesFrom (PGROUNDUP L.kend) ((L.PHYSTOP - PGROUNDUP L.kend) / PGSIZE)).reverse ∧
      (∀ i, i < L.PHYSTOP / PGSIZE → s1.ref_counter i = 0) := by
  have hL2 := hL
  obtain ⟨_, hle, htop, _⟩ := hL2
  have h := freerange_spec L
    { s with ref_counter := zeroLoop (L.PHYSTOP / PGSIZE) 0 s.ref_counter }
    L.kend L.PHYSTOP [] hL (le_refl _) (le_refl _)
    (PGROUNDUP_le_of_aligned _ _ hle htop)
    (by
      intro i hi
      show zeroLoop (L.PHYSTOP / PGSIZE) 0 s.ref_counter i = 0
      rw [zeroLoop_apply _ _ 0 _ rfl i, if_pos ⟨Nat.zero_le i, hi⟩])
    ⟨h0, by rw [h0]; decide, fun a ha => absurd ha (List.not_mem_nil a)⟩
    (fun a ha => absurd ha (List.not_mem_nil a))
  simpa [kinit] using h

theorem mem_kinit_frames (L : Layout) (hL : L.WF) (p : Nat) :
    p ∈ (framesFrom (PGROUNDUP L.kend)
        ((L.PHYSTOP - PGROUNDUP L.kend) / PGSIZE)).reverse ↔
      p % PGSIZE = 0 ∧ PGROUNDUP L.kend ≤ p ∧ p < L.PHYSTOP := by
  obtain ⟨_, _, htop, _⟩ := hL
  rw [List.mem_reverse, mem_framesFrom_range _ _ _ (PGROUNDUP_aligned _)]
  unfold PGSIZE at *
  omega

/-! ## The free-list invariant -/

/-- The valid frame addresses are the aligned addresses of the tracked range. -/
theorem validFrame_iff_tracked (L : Layout) (p : Nat) :
    validFrame L p ↔ p % PGSIZE = 0 ∧ PGROUNDUP L.kend ≤ p ∧ p < L.PHYSTOP := by
  unfold validFrame PGROUNDUP PGSIZE
  omega

theorem FreeInv_kinit (L : Layout) (s0 s : KState) (hL : L.WF) (h0 : s0.freelist = 0)
    (h : kinit L s0 = Except.ok s) : ∃ l, FreeInv L s l := by
  obtain ⟨s1, hs1, hfl, hz⟩ := kinit_spec L s0 hL h0
  rw [h] at hs1
  simp only [Except.ok.injEq] at hs1
  subst hs1
  refine ⟨_, hfl, ?_⟩
  intro p hp
  have hmem := (mem_kinit_frames L hL p).mpr ((validFrame_iff_tracked L p).mp hp)
  obtain ⟨_, _, htop, _⟩ := hL
  obtain ⟨hp1, _, hp3⟩ := hp
  have hidx : p / PGSIZE < L.PHYSTOP / PGSIZE := by
    unfold PGSIZE at *
    omega
  exact ⟨fun _ => hz _ hidx, fun _ => hmem⟩

theorem FreeInv_kalloc (L : Layout) (s : KState) (l : List Nat) (hL : L.WF)
    (h : FreeInv L s l) : ∃ l1, FreeInv L (kalloc s).2 l1 := by
  obtain ⟨hfl, hiff⟩ := h
  cases l with
  | nil =>
    have h0 : s.freelist = 0 := hfl.1
    rw [kalloc_empty s h0]
    refine ⟨[], ⟨h0, by rw [h0]; decide, fun a ha => absurd ha (List.not_mem_nil a)⟩, ?_⟩
    intro p hp
    have hne : p / PGSIZE ≠ 0 := by
      obtain ⟨hk, _, _, _⟩ := hL
      obtain ⟨hp1, hp2, _⟩ := hp
      unfold PGSIZE at *
      omega
    show p ∈ [] ↔ Function.update s.ref_counter 0 1 (p / PGSIZE) = 0
    rw [Function.update_noteq hne]
    exact hiff p hp
  | cons a t =>
    have hnd := FreeList_nodup s _ hfl
    have hat : a ∉ t := (List.nodup_cons.mp hnd).1
    have hhead : s.freelist = a := hfl.1.1
    refine ⟨t, FreeList_pop s a t hfl, ?_⟩
    intro p hp
    show p ∈ t ↔ Function.update s.ref_counter (s.freelist / PGSIZE) 1 (p / PGSIZE) = 0
    rw [hhead]
    by_cases hpa : p = a
    · subst hpa
      rw [Function.update_same]
      exact ⟨fun hm => absurd hm hat, fun h1 => absurd h1 (by decide)⟩
    · have hidx := index_ne_of_aligned p a hp.1 (hfl.2.2 a (List.mem_cons_self a t)) hpa
      rw [Function.update_noteq hidx, ← hiff p hp, List.mem_cons]
      exact ⟨fun hm => Or.inr hm, fun hm => hm.resolve_left hpa⟩

theorem FreeInv_kfree (L : Layout) (s s1 : KState) (l : List Nat) (pa : Nat) (hL : L.WF)
    (h : FreeInv L s l) (hv : validFrame L pa) (hc : 1 ≤ s.ref_counter (pa / PGSIZE))
    (hk : kfree L s pa = Except.ok s1) : ∃ l1, FreeInv L s1 l1 := by
  obtain ⟨hfl, hiff⟩ := h
  have hnot : pa ∉ l := by
    intro hm
    have := (hiff pa hv).mp hm
    omega
  by_cases h1 : s.ref_counter (pa / PGSIZE) = 1
  · rw [kfree_free_branch L s pa (Or.inl h1) hv] at hk
    simp only [Except.ok.injEq] at hk
    subst hk
    have htop := PHYSTOP_le L hL
    obtain ⟨hk0, _, _, _⟩ := hL
    have hv2 := hv
    obtain ⟨ha, hlo, hhi⟩ := hv2
    refine ⟨pa :: l, FreeList_push s l pa _ hfl ha (by omega) (by omega) hnot, ?_⟩
    intro p hp
    show p ∈ pa :: l ↔ Function.update s.ref_counter (pa / PGSIZE) 0 (p / PGSIZE) = 0
    by_cases hpa : p = pa
    · subst hpa
      rw [Function.update_same]
      exact ⟨fun _ => rfl, fun _ => List.mem_cons_self p l⟩
    · rw [Function.update_noteq (index_ne_of_aligned p pa hp.1 ha hpa), ← hiff p hp,
        List.mem_cons]
      exact ⟨fun hm => hm.resolve_left hpa, fun hm => Or.inr hm⟩
  · have hgt : 1 < s.ref_counter (pa / PGSIZE) := by omega
    rw [kfree_shared_branch L s pa hgt] at hk
    simp only [Except.ok.injEq] at hk
    subst hk
    refine ⟨l, hfl, ?_⟩
    intro p hp
    show p ∈ l ↔ Function.update s.ref_counter (pa / PGSIZE)
      (s.ref_counter (pa / PGSIZE) - 1) (p / PGSIZE) = 0
    by_cases hpa : p = pa
    · subst hpa
      rw [Function.update_same]
      exact ⟨fun hm => absurd hm hnot, fun h0 => by omega⟩
    · rw [Function.update_noteq (index_ne_of_aligned p pa hp.1 hv.1 hpa)]
      exact hiff p hp

theorem FreeInv_reachable (L : Layout) (s0 s : KState) (hL : L.WF) (h0 : s0.freelist = 0)
    (hr : Reachable L s0 s) : ∃ l, FreeInv L s l := by
  induction hr with
  | boot s hk => exact FreeInv_kinit L s0 s hL h0 hk
  | alloc s _ ih =>
    obtain ⟨l, hl⟩ := ih
    exact FreeInv_kalloc L s l hL hl
  | free s s1 pa _ hv hc hk ih =>
    obtain ⟨l, hl⟩ := ih
    exact FreeInv_kfree L s s1 l pa hL hl hv hc hk

theorem ok_eq_of_ok (r : Except String KState) (d s : KState) (h : r = Except.ok s) :
    r = Except.ok (stateOr r d) := by
  subst h
  rfl

theorem kinit_small : kinit smallLayout emptyState = Except.ok bootedState := by
  obtain ⟨s1, hs1, _⟩ := kinit_spec smallLayout emptyState (by decide) rfl
  exact ok_eq_of_ok _ emptyState s1 hs1

/-! ## Executions without sharing -/

theorem index_ne_zero_of_valid (L : Layout) (hL : L.WF) (a : Nat) (ha : validFrame L a) :
    a / PGSIZE ≠ 0 := by
  obtain ⟨hk, _, _, _⟩ := hL
  obtain ⟨h1, h2, _⟩ := ha
  unfold PGSIZE at *
  omega

theorem RunInv_kinit (L : Layout) (s0 si : KState) (hL : L.WF) (h0 : s0.freelist = 0)
    (hk : kinit L s0 = Except.ok si) :
    ∃ l0, RunInv L ((L.PHYSTOP - PGROUNDUP L.kend) / PGSIZE) si [] l0 := by
  obtain ⟨s1, hs1, hfl, hz⟩ := kinit_spec L s0 hL h0
  rw [hk] at hs1
  simp only [Except.ok.injEq] at hs1
  subst hs1
  refine ⟨_, hfl, ?_, List.nodup_nil, fun a ha => absurd ha (List.not_mem_nil a), ?_⟩
  · intro a ha
    have hv := (validFrame_iff_tracked L a).mpr ((mem_kinit_frames L hL a).mp ha)
    refine ⟨hv, hz _ ?_⟩
    obtain ⟨_, _, htop, _⟩ := hL
    obtain ⟨hp1, _, hp3⟩ := hv
    unfold PGSIZE at *
    omega
  · simp [framesFrom_length]

theorem RunInv_allocOk (L : Layout) (n : Nat) (s : KState) (out l : List Nat)
    (h : RunInv L n s out l) (hs : (kalloc s).1 ≠ 0) :
    (kalloc s).1 ∉ out ∧ ∃ l1, RunInv L n (kalloc s).2 ((kalloc s).1 :: out) l1 := by
  obtain ⟨hfl, hl, hnd, hout, hlen⟩ := h
  cases l with
  | nil => exact absurd hfl.1 hs
  | cons a t =>
    have hh : s.freelist = a := hfl.1.1
    have hat : a ∉ t := (List.nodup_cons.mp (FreeList_nodup s _ hfl)).1
    have ha := hl a (List.mem_cons_self a t)
    have hao : a ∉ out := by
      intro hm
      have := (hout a hm).2
      omega
    have hrc : ∀ b, (kalloc s).2.ref_counter b = Function.update s.ref_counter (a / PGSIZE) 1 b := by
      intro b
      show Function.update s.ref_counter (s.freelist / PGSIZE) 1 b = _
      rw [hh]
    have h1 : (kalloc s).1 = a := hh
    rw [h1]
    refine ⟨hao, t, FreeList_pop s a t hfl, ?_, List.nodup_cons.mpr ⟨hao, hnd⟩, ?_, ?_⟩
    · intro b hb
      have hbl := hl b (List.mem_cons_of_mem a hb)
      have hne : b ≠ a := fun e => hat (e ▸ hb)
      refine ⟨hbl.1, ?_⟩
      rw [hrc, Function.update_noteq (index_ne_of_aligned b a hbl.1.1 ha.1.1 hne)]
      exact hbl.2
    · intro b hb
      rcases List.mem_cons.mp hb with e | e
      · subst e
        exact ⟨ha.1, by rw [hrc, Function.update_same]⟩
      · have hbo := hout b e
        have hne : b ≠ a := fun e1 => hao (e1 ▸ e)
        refine ⟨hbo.1, ?_⟩
        rw [hrc, Function.update_noteq (index_ne_of_aligned b a hbo.1.1 ha.1.1 hne)]
        exact hbo.2
    · simp only [List.length_cons] at hlen ⊢
      omega

theorem RunInv_allocFail (L : Layout) (hL : L.WF) (n : Nat) (s : KState) (out l : List Nat)
    (h : RunInv L n s out l) (hs : (kalloc s).1 = 0) :
    ∃ l1, RunInv L n (kalloc s).2 out l1 := by
  obtain ⟨hfl, hl, hnd, hout, hlen⟩ := h
  have h0 : s.freelist = 0 := hs
  cases l with
  | cons a t =>
    have : s.freelist = a := hfl.1.1
    have : a ≠ 0 := hfl.1.2.1
    omega
  | nil =>
    rw [kalloc_empty s h0]
    refine ⟨[], ⟨h0, by rw [h0]; decide, fun a ha => absurd ha (List.not_mem_nil a)⟩,
      fun a ha => absurd ha (List.not_mem_nil a), hnd, ?_, hlen⟩
    intro b hb
    have hbo := hout b hb
    refine ⟨hbo.1, ?_⟩
    show Function.update s.ref_counter 0 1 (b / PGSIZE) = 1
    rw [Function.update_noteq (index_ne_zero_of_valid L hL b hbo.1)]
    exact hbo.2

theorem RunInv_free (L : Layout) (hL : L.WF) (n : Nat) (s : KState) (out l : List Nat)
    (pa : Nat) (h : RunInv L n s out l) (hpa : pa ∈ out) :
    ∃ s1 l1, kfree L s pa = Except.ok s1 ∧ RunInv L n s1 (out.erase pa) l1 := by
  obtain ⟨hfl, hl, hnd, hout, hlen⟩ := h
  have hp := hout pa hpa
  have hnot : pa ∉ l := by
    intro hm
    have := (hl pa hm).2
    omega
  have htop := PHYSTOP_le L hL
  obtain ⟨hk0, _, _, _⟩ := hL
  have hv := hp.1
  obtain ⟨ha, hlo, hhi⟩ := hv
  refine ⟨_, pa :: l, kfree_free_branch L s pa (Or.inl hp.2) hp.1,
    FreeList_push s l pa _ hfl ha (by omega) (by omega) hnot, ?_, hnd.erase pa, ?_, ?_⟩
  · intro b hb
    show validFrame L b ∧ Function.update s.ref_counter (pa / PGSIZE) 0 (b / PGSIZE) = 0
    rcases List.mem_cons.mp hb with e | e
    · subst e
      exact ⟨hp.1, Function.update_same _ _ _⟩
    · have hbl := hl b e
      have hne : b ≠ pa := fun e1 => hnot (e1 ▸ e)
      refine ⟨hbl.1, ?_⟩
      rw [Function.update_noteq (index_ne_of_aligned b pa hbl.1.1 ha hne)]
      exact hbl.2
  · intro b hb
    show validFrame L b ∧ Function.update s.ref_counter (pa / PGSIZE) 0 (b / PGSIZE) = 1
    obtain ⟨hne, hbm⟩ := (List.Nodup.mem_erase_iff hnd).mp hb
    have hbo := hout b hbm
    refine ⟨hbo.1, ?_⟩
    rw [Function.update_noteq (index_ne_of_aligned b pa hbo.1.1 ha hne)]
    exact hbo.2
  · have h1 := List.length_erase_of_mem hpa
    have h2 := List.length_pos_of_mem hpa
    simp only [List.length_cons]
    omega

theorem RunInv_run (L : Layout) (hL : L.WF) (n : Nat) (si s : KState) (out l0 : List Nat)
    (hi : RunInv L n si [] l0) (hr : Run L si s out) : ∃ l, RunInv L n s out l := by
  induction hr with
  | start => exact ⟨l0, hi⟩
  | allocOk s out _ hs ih =>
    obtain ⟨l, hl⟩ := ih
    exact (RunInv_allocOk L n s out l hl hs).2
  | allocFail s out _ hs ih =>
    obtain ⟨l, hl⟩ := ih
    exact RunInv_allocFail L hL n s out l hl hs
  | free s s1 out pa _ hpa hk ih =>
    obtain ⟨l, hl⟩ := ih
    obtain ⟨s2, l1, hk2, hinv⟩ := RunInv_free L hL n s out l pa hl hpa
    rw [hk] at hk2
    simp only [Except.ok.injEq] at hk2
    subst hk2
    exact ⟨l1, hinv⟩

theorem bootedState_freeList :
    FreeList bootedState [0x7000, 0x6000, 0x5000, 0x4000, 0x3000, 0x2000] := by
  obtain ⟨s1, hs1, hfl, _⟩ := kinit_spec smallLayout emptyState (by decide) rfl
  rw [kinit_small] at hs1
  simp only [Except.ok.injEq] at hs1
  subst hs1
  have e : (framesFrom (PGROUNDUP smallLayout.kend)
      ((smallLayout.PHYSTOP - PGROUNDUP smallLayout.kend) / PGSIZE)).reverse
      = [0x7000, 0x6000, 0x5000, 0x4000, 0x3000, 0x2000] := by decide
  exact e ▸ hfl

theorem kalloc_fst (s : KState) : (kalloc s).1 = s.freelist := rfl

theorem head_ne_zero (s : KState) (a : Nat) (t : List Nat) (h : FreeList s (a :: t)) :
    (kalloc s).1 ≠ 0 := by
  rw [kalloc_fst, h.1.1]
  exact h.1.2.1

theorem bootedState_first : (kalloc bootedState).1 ≠ 0 :=
  head_ne_zero bootedState _ _ bootedState_freeList

theorem bootedState_second : (kalloc (kalloc bootedState).2).1 ≠ 0 :=
  head_ne_zero _ _ _ (FreeList_pop bootedState _ _ bootedState_freeList)

/-! ## The sign of the table entries -/

theorem kfree_negative_branch (L : Layout) (s : KState) (pa : Nat)
    (h : s.ref_counter (pa / PGSIZE) < 0) :
    kfree L s pa = Except.error "ref for page negative\n" := by
  unfold kfree
  rw [if_neg (by omega), if_neg (by omega)]

/-- A call of `kfree` that returns leaves every entry but that of `pa` alone,
and leaves the entry of `pa` non-negative. -/
theorem kfree_ok_table (L : Layout) (s s1 : KState) (pa : Nat)
    (hk : kfree L s pa = Except.ok s1) :
    (∀ i, i ≠ pa / PGSIZE → s1.ref_counter i = s.ref_counter i) ∧
    0 ≤ s1.ref_counter (pa / PGSIZE) := by
  by_cases hc : s.ref_counter (pa / PGSIZE) = 1 ∨ s.ref_counter (pa / PGSIZE) = 0
  · by_cases hv : validFrame L pa
    · rw [kfree_free_branch L s pa hc hv] at hk
      simp only [Except.ok.injEq] at hk
      subst hk
      refine ⟨fun i hi => Function.update_noteq hi _ _, ?_⟩
      show 0 ≤ Function.update s.ref_counter (pa / PGSIZE) 0 (pa / PGSIZE)
      rw [Function.update_same]
    · rw [kfree_invalid_branch L s pa hc hv] at hk
      simp at hk
  · by_cases hgt : 1 < s.ref_counter (pa / PGSIZE)
    · rw [kfree_shared_branch L s pa hgt] at hk
      simp only [Except.ok.injEq] at hk
      subst hk
      refine ⟨fun i hi => Function.update_noteq hi _ _, ?_⟩
      show 0 ≤ Function.update s.ref_counter (pa / PGSIZE)
        (s.ref_counter (pa / PGSIZE) - 1) (pa / PGSIZE)
      rw [Function.update_same]
      omega
    · rw [kfree_negative_branch L s pa (by omega)] at hk
      simp at hk

/-- When the entry `kfree` reads is not negative, the last branch is not taken. -/
theorem kfree_not_last_branch (L : Layout) (s : KState) (pa : Nat)
    (h : 0 ≤ s.ref_counter (pa / PGSIZE)) :
    kfree L s pa ≠ Except.error "ref for page negative\n" := by
  by_cases hc : s.ref_counter (pa / PGSIZE) = 1 ∨ s.ref_counter (pa / PGSIZE) = 0
  · by_cases hv : validFrame L pa
    · rw [kfree_free_branch L s pa hc hv]
      simp
    · rw [kfree_invalid_branch L s pa hc hv]
      simp
  · rw [kfree_shared_branch L s pa (by omega)]
    simp

/-- The loop of `freerange` leaves the cells past the end of the table alone. -/
theorem freerangeLoop_outside (L : Layout) (pa_end : Nat) (hend : pa_end ≤ L.PHYSTOP) :
    ∀ (d p : Nat) (s s1 : KState), pa_end - p ≤ d →
    freerangeLoop L pa_end p s = Except.ok s1 →
    ∀ i, L.PHYSTOP / PGSIZE ≤ i → s1.ref_counter i = s.ref_counter i := by
  intro d
  induction d with
  | zero =>
    intro p s s1 hd hk i _
    rw [freerangeLoop, if_neg (by unfold PGSIZE; omega)] at hk
    simp only [Except.ok.injEq] at hk
    rw [hk]
  | succ d ih =>
    intro p s s1 hd hk i hi
    rw [freerangeLoop] at hk
    by_cases hstep : p + PGSIZE ≤ pa_end
    · rw [if_pos hstep] at hk
      cases hf : kfree L s p with
      | error e => rw [hf] at hk; simp at hk
      | ok s2 =>
        rw [hf] at hk
        simp only at hk
        have hne : i ≠ p / PGSIZE := by
          unfold PGSIZE at *
          omega
        rw [ih (p + PGSIZE) s2 s1 (by unfold PGSIZE at *; omega) hk i hi]
        exact (kfree_ok_table L s s2 p hf).1 i hne
    · rw [if_neg hstep] at hk
      simp only [Except.ok.injEq] at hk
      rw [hk]

/-- The function `kinit` leaves the cells past the end of the table alone. -/
theorem kinit_outside (L : Layout) (s s1 : KState) (hk : kinit L s = Except.ok s1) :
    ∀ i, L.PHYSTOP / PGSIZE ≤ i → s1.ref_counter i = s.ref_counter i := by
  intro i hi
  unfold kinit freerange at hk
  rw [freerangeLoop_outside L L.PHYSTOP (le_refl _) _ _ _ s1 (le_refl _) hk i hi]
  show zeroLoop (L.PHYSTOP / PGSIZE) 0 s.ref_counter i = s.ref_counter i
  rw [zeroLoop_apply _ _ 0 _ rfl i, if_neg (by omega)]

/-- Whatever the arguments of the calls, the entries of the table are never
negative after `kinit()`. -/
theorem table_nonneg (L : Layout) (s0 s : KState) (hL : L.WF) (h0 : s0.freelist = 0)
    (hr : ReachableAny L s0 s) : ∀ i, i < L.PHYSTOP / PGSIZE → 0 ≤ s.ref_counter i := by
  induction hr with
  | boot s hk =>
    obtain ⟨s1, hs1, _, hz⟩ := kinit_spec L s0 hL h0
    rw [hk] at hs1
    simp only [Except.ok.injEq] at hs1
    subst hs1
    intro i hi
    exact le_of_eq (hz i hi).symm
  | alloc s _ ih =>
    intro i hi
    show 0 ≤ Function.update s.ref_counter (s.freelist / PGSIZE) 1 i
    by_cases e : i = s.freelist / PGSIZE
    · rw [e, Function.update_same]
      decide
    · rw [Function.update_noteq e]
      exact ih i hi
  | free s s1 pa _ hk ih =>
    intro i hi
    obtain ⟨hoth, hpa⟩ := kfree_ok_table L s s1 pa hk
    by_cases e : i = pa / PGSIZE
    · rw [e]; exact hpa
    · rw [hoth i e]
      exact ih i hi

/-- Whatever the arguments of the earlier calls, a call of `kfree` that reads
an entry of the table does not take the last branch. -/
theorem last_branch_inside_table (L : Layout) (s0 s : KState) (pa : Nat) (hL : L.WF)
    (h0 : s0.freelist = 0) (hr : ReachableAny L s0 s) (hpa : pa / PGSIZE < L.PHYSTOP / PGSIZE) :
    kfree L s pa ≠ Except.error "ref for page negative\n" :=
  kfree_not_last_branch L s pa (table_nonneg L s0 s hL h0 hr _ hpa)

theorem kinit_negTail : kinit smallLayout negTailState = Except.ok negTailBooted := by
  obtain ⟨s1, hs1, _⟩ := kinit_spec smallLayout negTailState (by decide) rfl
  exact ok_eq_of_ok _ negTailState s1 hs1

theorem negTailBooted_entry : negTailBooted.ref_counter (0x8000 / PGSIZE) = -1 := by
  rw [kinit_outside smallLayout negTailState negTailBooted kinit_negTail _ (by decide)]
  decide

/-! ## Lock events of the operations -/

theorem kfreeT_fst (L : Layout) (s : KState) (pa : Nat) : (kfreeT L s pa).1 = kfree L s pa := by
  unfold kfreeT kfree
  split_ifs <;> rfl

theorem kallocT_fst (s : KState) : (kallocT s).1 = kalloc s := rfl

theorem zeroLoopT_fst (n : Nat) : ∀ (d i : Nat) (rc : Nat → Int), n - i = d →
    (zeroLoopT n i rc).1 = zeroLoop n i rc := by
  intro d
  induction d with
  | zero =>
    intro i rc hd
    rw [zeroLoopT, zeroLoop, if_neg (by omega), if_neg (by omega)]
  | succ d ih =>
    intro i rc hd
    rw [zeroLoopT, zeroLoop, if_pos (by omega), if_pos (by omega)]
    exact ih _ _ (by omega)

theorem freerangeLoopT_fst (L : Layout) (pa_end : Nat) : ∀ (d p : Nat) (s : KState),
    pa_end - p ≤ d → (freerangeLoopT L pa_end p s).1 = freerangeLoop L pa_end p s := by
  intro d
  induction d with
  | zero =>
    intro p s hd
    rw [freerangeLoopT, freerangeLoop, if_neg (by unfold PGSIZE; omega),
      if_neg (by unfold PGSIZE; omega)]
  | succ d ih =>
    intro p s hd
    rw [freerangeLoopT, freerangeLoop]
    by_cases hstep : p + PGSIZE ≤ pa_end
    · rw [if_pos hstep, if_pos hstep, ← kfreeT_fst]
      rcases hq : kfreeT L s p with ⟨r, tr⟩
      cases r with
      | error e => rfl
      | ok s1 => exact ih _ _ (by unfold PGSIZE at *; omega)
    · rw [if_neg hstep, if_neg hstep]

theorem kinitT_fst (L : Layout) (s : KState) : (kinitT L s).1 = kinit L s := by
  unfold kinitT kinit freerangeT freerange
  simp only
  rw [freerangeLoopT_fst L _ _ _ _ (le_refl _), zeroLoopT_fst _ _ 0 _ rfl]

theorem heldAfter_append (t1 t2 : List Event) : ∀ h : Held,
    heldAfter h (t1 ++ t2) = heldAfter (heldAfter h t1) t2 := by
  induction t1 with
  | nil => intro h; rfl
  | cons e t1 ih => intro h; exact ih (h.step e)

theorem traceOk_append (ok : Held → Event → Bool) (t1 t2 : List Event) : ∀ h : Held,
    traceOk ok h (t1 ++ t2) = (traceOk ok h t1 && traceOk ok (heldAfter h t1) t2) := by
  induction t1 with
  | nil => intro h; simp [traceOk, heldAfter]
  | cons e t1 ih =>
    intro h
    show (ok h e && traceOk ok (h.step e) (t1 ++ t2)) =
      (ok h e && traceOk ok (h.step e) t1 && traceOk ok (heldAfter (h.step e) t1) t2)
    rw [ih, Bool.and_assoc]

/-- A call of `kfree` ends with no lock held, whatever its outcome. -/
theorem kfreeT_held (L : Layout) (s : KState) (pa : Nat) :
    heldAfter Held.free (kfreeT L s pa).2 = Held.free := by
  unfold kfreeT testReads
  split_ifs <;> rfl

theorem kfreeT_refWriteLocked (L : Layout) (s : KState) (pa : Nat) :
    traceOk refWriteLocked Held.free (kfreeT L s pa).2 = true := by
  unfold kfreeT testReads
  split_ifs <;> rfl

theorem kfreeT_refLockApart (L : Layout) (s : KState) (pa : Nat) :
    traceOk refLockApart Held.free (kfreeT L s pa).2 = true := by
  unfold kfreeT testReads
  split_ifs <;> rfl

theorem kfreeT_noNesting (L : Layout) (s : KState) (pa : Nat) :
    traceOk noNesting Held.free (kfreeT L s pa).2 = true := by
  unfold kfreeT testReads
  split_ifs <;> rfl

theorem kallocT_held (s : KState) : heldAfter Held.free (kallocT s).2 = Held.free := by
  unfold kallocT
  simp only
  split_ifs <;> rfl

theorem kallocT_refWriteUnderKmem (s : KState) :
    traceOk refWriteUnderKmem Held.free (kallocT s).2 = true := by
  unfold kallocT
  simp only
  split_ifs <;> rfl

theorem kallocT_refLockApart (s : KState) :
    traceOk refLockApart Held.free (kallocT s).2 = true := by
  unfold kallocT
  simp only
  split_ifs <;> rfl

theorem kallocT_noNesting (s : KState) :
    traceOk noNesting Held.free (kallocT s).2 = true := by
  unfold kallocT
  simp only
  split_ifs <;> rfl

/-- The events of the first loop of `kinit` are writes of table entries. -/
theorem zeroLoopT_trace (ok : Held → Event → Bool) (h : Held)
    (hw : ∀ j, ok h (Event.writeRef j) = true) (n : Nat) :
    ∀ (d i : Nat) (rc : Nat → Int), n - i = d →
    traceOk ok h (zeroLoopT n i rc).2 = true ∧ heldAfter h (zeroLoopT n i rc).2 = h := by
  intro d
  induction d with
  | zero =>
    intro i rc hd
    rw [zeroLoopT, if_neg (by omega)]
    exact ⟨rfl, rfl⟩
  | succ d ih =>
    intro i rc hd
    rw [zeroLoopT, if_pos (by omega)]
    obtain ⟨h1, h2⟩ := ih (i + 1) (Function.update rc i 0) (by omega)
    refine ⟨?_, ?_⟩
    · show (ok h (Event.writeRef i) && traceOk ok h _) = true
      rw [hw i, h1]
      rfl
    · exact h2

/-- A property of events that every call of `kfree` satisfies from the state
with no lock held is satisfied by the loop of `freerange`, which ends with no
lock held. -/
theorem freerangeLoopT_trace (ok : Held → Event → Bool) (L : Layout)
    (hkf : ∀ s pa, traceOk ok Held.free (kfreeT L s pa).2 = true) (pa_end : Nat) :
    ∀ (d p : Nat) (s : KState), pa_end - p ≤ d →
    traceOk ok Held.free (freerangeLoopT L pa_end p s).2 = true ∧
    heldAfter Held.free (freerangeLoopT L pa_end p s).2 = Held.free := by
  intro d
  induction d with
  | zero =>
    intro p s hd
    rw [freerangeLoopT, if_neg (by unfold PGSIZE; omega)]
    exact ⟨rfl, rfl⟩
  | succ d ih =>
    intro p s hd
    rw [freerangeLoopT]
    by_cases hstep : p + PGSIZE ≤ pa_end
    · rw [if_pos hstep]
      have hk1 := hkf s p
      have hk2 := kfreeT_held L s p
      rcases hq : kfreeT L s p with ⟨r, tr⟩
      rw [hq] at hk1 hk2
      cases r with
      | error e => exact ⟨hk1, hk2⟩
      | ok s1 =>
        obtain ⟨h1, h2⟩ := ih (p + PGSIZE) s1 (by unfold PGSIZE at *; omega)
        simp only at hk1 hk2 ⊢
        rw [traceOk_append, heldAfter_append, hk1, hk2, h1, h2]
        exact ⟨rfl, rfl⟩
    · rw [if_neg hstep]
      exact ⟨rfl, rfl⟩

/-- A property of events that the lock operations and the table writes of
`kinit` satisfy, and that every call of `kfree` satisfies, is satisfied by
`kinit`, which ends with no lock held. -/
theorem kinitT_trace (ok : Held → Event → Bool) (L : Layout) (s : KState)
    (h1 : ok Held.free (Event.initlock Lock.refc) = true)
    (h2 : ok Held.free (Event.acquire Lock.refc) = true)
    (h3 : ∀ j, ok { kmem := false, refc := true } (Event.writeRef j) = true)
    (h4 : ok { kmem := false, refc := true } (Event.release Lock.refc) = true)
    (h5 : ok Held.free (Event.initlock Lock.kmem) = true)
    (hkf : ∀ s pa, traceOk ok Held.free (kfreeT L s pa).2 = true) :
    traceOk ok Held.free (kinitT L s).2 = true ∧
    heldAfter Held.free (kinitT L s).2 = Held.free := by
  obtain ⟨z1, z2⟩ := zeroLoopT_trace ok { kmem := false, refc := true } h3
    (L.PHYSTOP / PGSIZE) _ 0 s.ref_counter rfl
  obtain ⟨f1, f2⟩ := freerangeLoopT_trace ok L hkf L.PHYSTOP _ (PGROUNDUP L.kend)
    { s with ref_counter := (zeroLoopT (L.PHYSTOP / PGSIZE) 0 s.ref_counter).1 } (le_refl _)
  have ha : heldAfter Held.free [Event.initlock Lock.refc, Event.acquire Lock.refc]
      = { kmem := false, refc := true } := rfl
  have hb : heldAfter { kmem := false, refc := true }
      [Event.release Lock.refc, Event.initlock Lock.kmem] = Held.free := rfl
  have ta : traceOk ok Held.free [Event.initlock Lock.refc, Event.acquire Lock.refc]
      = true := by
    show (ok Held.free (Event.initlock Lock.refc) &&
      (ok Held.free (Event.acquire Lock.refc) && true)) = true
    rw [h1, h2]
    rfl
  have tb : traceOk ok { kmem := false, refc := true }
      [Event.release Lock.refc, Event.initlock Lock.kmem] = true := by
    show (ok { kmem := false, refc := true } (Event.release Lock.refc) &&
      (ok Held.free (Event.initlock Lock.kmem) && true)) = true
    rw [h4, h5]
    rfl
  unfold kinitT freerangeT
  simp only
  constructor
  · simp only [traceOk_append, heldAfter_append, ha, z2, hb, ta, z1, tb, f1, Bool.and_self]
  · simp only [heldAfter_append, ha, z2, hb, f2]

theorem update_twice_self (rc : Nat → Int) (i : Nat) (a b : Int) (h : rc i = b) :
    Function.update (Function.update rc i a) i b = rc := by
  rw [Function.update_idem, ← h, Function.update_eq_self]

/-! ## The claims -/

/-- C1 (counterexample): in a state where frame `0x2000` has reference count 0
and is already the one node of the free list, `kfree(0x2000)` does not panic:
it returns normally, pushes the frame a second time (the frame becomes the
head again, and its link now points at itself) and leaves the count at 0. -/
theorem kfree_double_free_succeeds :
    oneFreeState.ref_counter (0x2000 / PGSIZE) = 0 ∧ FreeList oneFreeState [0x2000] ∧
    isPanic (kfree smallLayout oneFreeState 0x2000) = false ∧
    kfree smallLayout oneFreeState 0x2000 = Except.ok
      { freelist := 0x2000
        ref_counter := Function.update oneFreeState.ref_counter 2 0
        mem := write64 (memset oneFreeState.mem 0x2000 1 PGSIZE) 0x2000 0x2000 } ∧
    read64 (write64 (memset oneFreeState.mem 0x2000 1 PGSIZE) 0x2000 0x2000) 0x2000
      = 0x2000 :=
  ⟨by decide, by decide, by decide, rfl, by decide⟩

/-- C1 (amended): when the reference count of `pa` is 0, `kfree(pa)` panics
exactly when `pa` is not a valid frame address; for a valid `pa` it returns
normally and does what it does for count 1: it fills the frame with byte 1,
stores the old list head in the frame's link, makes `pa` the head of the free
list and leaves the count at 0. -/
theorem kfree_count_zero (L : Layout) (s : KState) (pa : Nat)
    (h0 : s.ref_counter (pa / PGSIZE) = 0) :
    kfree L s pa =
      if validFrame L pa then
        Except.ok
          { freelist := pa
            ref_counter := Function.update s.ref_counter (pa / PGSIZE) 0
            mem := write64 (memset s.mem pa 1 PGSIZE) pa s.freelist }
      else Except.error "kfree" := by
  by_cases hv : validFrame L pa
  · rw [if_pos hv]; exact kfree_free_branch L s pa (Or.inr h0) hv
  · rw [if_neg hv]; exact kfree_invalid_branch L s pa (Or.inr h0) hv

theorem kfree_count_zero_witness :
    emptyState.ref_counter (0x3000 / PGSIZE) = 0 ∧
    kfree smallLayout emptyState 0x3000 =
      if validFrame smallLayout 0x3000 then
        Except.ok
          { freelist := 0x3000
            ref_counter := Function.update emptyState.ref_counter (0x3000 / PGSIZE) 0
            mem := write64 (memset emptyState.mem 0x3000 1 PGSIZE) 0x3000 emptyState.freelist }
      else Except.error "kfree" :=
  ⟨by decide, kfree_count_zero smallLayout emptyState 0x3000 (by decide)⟩

/-- C2 (the code at the failing input): with an empty free list `kalloc()`
returns 0 and leaves the list empty, but it writes the table all the same:
entry 0 goes from 0 to 1. -/
theorem kalloc_empty_writes_entry_zero :
    FreeList emptyState [] ∧ (kalloc emptyState).1 = 0 ∧
    FreeList (kalloc emptyState).2 [] ∧
    emptyState.ref_counter 0 = 0 ∧ (kalloc emptyState).2.ref_counter 0 = 1 :=
  ⟨by decide, by decide, by decide, by decide, by decide⟩

/-- C3: when the free list is `h :: t`, `kalloc()` returns `h`, the free list
becomes `t`, the reference count of `h` becomes 1 and every other entry of the
table is unchanged. -/
theorem kalloc_pops_head (s : KState) (h : Nat) (t : List Nat)
    (hl : FreeList s (h :: t)) :
    (kalloc s).1 = h ∧ FreeList (kalloc s).2 t ∧
    (kalloc s).2.ref_counter (h / PGSIZE) = 1 ∧
    ∀ i, i ≠ h / PGSIZE → (kalloc s).2.ref_counter i = s.ref_counter i := by
  have hh : s.freelist = h := hl.1.1
  refine ⟨hh, FreeList_pop s h t hl, ?_, ?_⟩
  · show Function.update s.ref_counter (s.freelist / PGSIZE) 1 (h / PGSIZE) = 1
    rw [hh, Function.update_same]
  · intro i hi
    show Function.update s.ref_counter (s.freelist / PGSIZE) 1 i = s.ref_counter i
    rw [hh, Function.update_noteq hi]

theorem kalloc_pops_head_witness :
    FreeList oneFreeState (0x2000 :: []) ∧
    ((kalloc oneFreeState).1 = 0x2000 ∧ FreeList (kalloc oneFreeState).2 [] ∧
    (kalloc oneFreeState).2.ref_counter (0x2000 / PGSIZE) = 1 ∧
    ∀ i, i ≠ 0x2000 / PGSIZE →
      (kalloc oneFreeState).2.ref_counter i = oneFreeState.ref_counter i) :=
  ⟨by decide, kalloc_pops_head oneFreeState 0x2000 [] (by decide)⟩

/-- C5: when the reference count `n` of `pa` is greater than 1, `kfree(pa)`
returns normally and only decrements: the count of `pa` becomes `n - 1`, and
the free list, the whole of memory and every other entry are unchanged. -/
theorem kfree_shared_only_decrements (L : Layout) (s : KState) (pa : Nat)
    (h : 1 < s.ref_counter (pa / PGSIZE)) :
    ∃ s1, kfree L s pa = Except.ok s1 ∧
      s1.ref_counter (pa / PGSIZE) = s.ref_counter (pa / PGSIZE) - 1 ∧
      (∀ i, i ≠ pa / PGSIZE → s1.ref_counter i = s.ref_counter i) ∧
      s1.freelist = s.freelist ∧ s1.mem = s.mem := by
  refine ⟨_, kfree_shared_branch L s pa h, ?_, ?_, rfl, rfl⟩
  · exact Function.update_same _ _ _
  · intro i hi
    exact Function.update_noteq hi _ _

theorem kfree_shared_only_decrements_witness :
    1 < (ownedState 3).ref_counter (0x2000 / PGSIZE) ∧
    ∃ s1, kfree smallLayout (ownedState 3) 0x2000 = Except.ok s1 ∧
      s1.ref_counter (0x2000 / PGSIZE) = (ownedState 3).ref_counter (0x2000 / PGSIZE) - 1 ∧
      (∀ i, i ≠ 0x2000 / PGSIZE → s1.ref_counter i = (ownedState 3).ref_counter i) ∧
      s1.freelist = (ownedState 3).freelist ∧ s1.mem = (ownedState 3).mem :=
  ⟨by decide, kfree_shared_only_decrements smallLayout (ownedState 3) 0x2000 (by decide)⟩

/-- C6: let `f` be a valid frame with reference count `n > 1` that is not on
the free list `l`.  After each of the first `n - 1` calls of `kfree(f)` the
free list is still `l` (so `f` is absent) and the count is `n - k`; the `n`-th
call returns normally too, and after it the free list is `f :: l`, where `f`
occurs exactly once, the count is 0, and the next `kalloc()` returns `f`. -/
theorem kfree_n_times (L : Layout) (s : KState) (f n : Nat) (l : List Nat) (hL : L.WF)
    (hn : 1 < n) (hv : validFrame L f) (hc : s.ref_counter (f / PGSIZE) = n)
    (hl : FreeList s l) (hf : f ∉ l) :
    (∀ k, k < n → ∃ sk, kfreeN L f k s = Except.ok sk ∧ FreeList sk l ∧
      sk.ref_counter (f / PGSIZE) = (n : Int) - k) ∧
    ∃ sn, kfreeN L f n s = Except.ok sn ∧ FreeList sn (f :: l) ∧
      (f :: l).count f = 1 ∧ sn.ref_counter (f / PGSIZE) = 0 ∧ (kalloc sn).1 = f := by
  have hpre : ∀ k, k < n → kfreeN L f k s = Except.ok
      { s with
        ref_counter :=
          Function.update s.ref_counter (f / PGSIZE) ((n : Int) - k) } := by
    intro k hk
    rw [kfreeN_shared L f k s (by rw [hc]; exact_mod_cast hk), hc]
  constructor
  · intro k hk
    refine ⟨_, hpre k hk, hl, ?_⟩
    exact Function.update_same _ _ _
  · obtain ⟨m, rfl⟩ : ∃ m, n = m + 1 := ⟨n - 1, by omega⟩
    have hlast := kfreeN_succ_of_ok L f m s _ (hpre m (by omega))
    have hone : (({ s with
        ref_counter :=
          Function.update s.ref_counter (f / PGSIZE) (((m + 1 : Nat) : Int) - m) } :
        KState).ref_counter (f / PGSIZE) = 1) := by
      show Function.update s.ref_counter (f / PGSIZE) (((m + 1 : Nat) : Int) - m)
        (f / PGSIZE) = 1
      rw [Function.update_same]
      push_cast
      omega
    have htop := PHYSTOP_le L hL
    obtain ⟨hk0, _, _, _⟩ := hL
    have hv2 := hv
    obtain ⟨ha, hlo, hhi⟩ := hv2
    refine ⟨_, hlast.trans (kfree_free_branch L _ f (Or.inl hone) hv),
      FreeList_push _ l f _ hl ha (by omega) (by omega) hf, ?_,
      Function.update_same _ _ _, rfl⟩
    rw [List.count_cons_self, List.count_eq_zero_of_not_mem hf]

theorem kfree_n_times_witness :
    smallLayout.WF ∧ 1 < 3 ∧ validFrame smallLayout 0x2000 ∧
    (ownedState 3).ref_counter (0x2000 / PGSIZE) = (3 : Nat) ∧
    FreeList (ownedState 3) [] ∧ 0x2000 ∉ ([] : List Nat) ∧
    ((∀ k, k < 3 → ∃ sk, kfreeN smallLayout 0x2000 k (ownedState 3) = Except.ok sk ∧
      FreeList sk [] ∧ sk.ref_counter (0x2000 / PGSIZE) = ((3 : Nat) : Int) - k) ∧
    ∃ sn, kfreeN smallLayout 0x2000 3 (ownedState 3) = Except.ok sn ∧
      FreeList sn (0x2000 :: []) ∧
      (0x2000 :: ([] : List Nat)).count 0x2000 = 1 ∧ sn.ref_counter (0x2000 / PGSIZE) = 0 ∧
      (kalloc sn).1 = 0x2000) :=
  ⟨by decide, by decide, by decide, by decide, by decide, by decide,
    kfree_n_times smallLayout (ownedState 3) 0x2000 3 [] (by decide) (by decide) (by decide)
      (by decide) (by decide) (by decide)⟩

/-- C7 (the code at the failing input): `0x2001` is not frame aligned, and the
entry it indexes holds 2; `kfree(0x2001)` does not panic: it returns normally
and decrements that entry to 1. -/
theorem kfree_invalid_shared_no_panic :
    ¬ validFrame smallLayout 0x2001 ∧
    (ownedState 2).ref_counter (0x2001 / PGSIZE) = 2 ∧
    isPanic (kfree smallLayout (ownedState 2) 0x2001) = false ∧
    kfree smallLayout (ownedState 2) 0x2001 = Except.ok
      { ownedState 2 with
        ref_counter := Function.update (ownedState 2).ref_counter 2 1 } :=
  ⟨by decide, by decide, by decide, rfl⟩

/-- C8: for `end <= pa_start`, `pa_end <= PHYSTOP` and
`PGROUNDUP(pa_start) <= pa_end`, from a zeroed table and a free list `l0` that
holds no frame of the range, `freerange(pa_start, pa_end)` returns normally and
puts the frames `new` in front of `l0`, where `new` has
`(pa_end - PGROUNDUP(pa_start)) / PGSIZE` elements, none twice, and holds
exactly the aligned `p` with `PGROUNDUP(pa_start) <= p` and
`p + PGSIZE <= pa_end`; `pa_start` and `pa_end` need not be aligned. -/
theorem freerange_frames (L : Layout) (s : KState) (pa_start pa_end : Nat) (l0 : List Nat)
    (hL : L.WF) (h1 : L.kend ≤ pa_start) (h2 : pa_end ≤ L.PHYSTOP)
    (h3 : PGROUNDUP pa_start ≤ pa_end)
    (hz : ∀ i, i < L.PHYSTOP / PGSIZE → s.ref_counter i = 0) (hl : FreeList s l0)
    (hd : ∀ a ∈ l0, a < PGROUNDUP pa_start ∨ pa_end < a + PGSIZE) :
    ∃ s1 new, freerange L s pa_start pa_end = Except.ok s1 ∧
      FreeList s1 (new ++ l0) ∧
      new.length = (pa_end - PGROUNDUP pa_start) / PGSIZE ∧ new.Nodup ∧
      ∀ p, p ∈ new ↔ (p % PGSIZE = 0 ∧ PGROUNDUP pa_start ≤ p ∧ p + PGSIZE ≤ pa_end) := by
  obtain ⟨s1, hs1, hfl, _⟩ := freerange_spec L s pa_start pa_end l0 hL h1 h2 h3 hz hl hd
  refine ⟨s1, _, hs1, hfl, ?_, ?_, ?_⟩
  · rw [List.length_reverse, framesFrom_length]
  · exact List.nodup_reverse.mpr (framesFrom_nodup _ _)
  · intro p
    rw [List.mem_reverse]
    exact mem_framesFrom_range _ _ _ (PGROUNDUP_aligned _)

theorem freerange_frames_witness :
    smallLayout.WF ∧ smallLayout.kend ≤ 0x1801 ∧ 0x7fff ≤ smallLayout.PHYSTOP ∧
    PGROUNDUP 0x1801 ≤ 0x7fff ∧
    (∀ i, i < smallLayout.PHYSTOP / PGSIZE → emptyState.ref_counter i = 0) ∧
    FreeList emptyState [] ∧
    (∀ a ∈ ([] : List Nat), a < PGROUNDUP 0x1801 ∨ 0x7fff < a + PGSIZE) ∧
    ∃ s1 new, freerange smallLayout emptyState 0x1801 0x7fff = Except.ok s1 ∧
      FreeList s1 (new ++ []) ∧
      new.length = (0x7fff - PGROUNDUP 0x1801) / PGSIZE ∧ new.Nodup ∧
      ∀ p, p ∈ new ↔ (p % PGSIZE = 0 ∧ PGROUNDUP 0x1801 ≤ p ∧ p + PGSIZE ≤ 0x7fff) :=
  ⟨by decide, by decide, by decide, by decide, fun _ _ => rfl, by decide,
    fun a ha => absurd ha (List.not_mem_nil a),
    freerange_frames smallLayout emptyState 0x1801 0x7fff [] (by decide) (by decide)
      (by decide) (by decide) (fun _ _ => rfl) (by decide)
      (fun a ha => absurd ha (List.not_mem_nil a))⟩

/-- C9: from a boot state whose free list is empty, `kinit()` returns normally
(no panic), every entry of the table is 0 afterwards, and the free list holds
exactly the aligned frames `p` with `PGROUNDUP(end) <= p < PHYSTOP`, each
once. -/
theorem kinit_frames (L : Layout) (s : KState) (hL : L.WF) (h0 : s.freelist = 0) :
    ∃ s1 l, kinit L s = Except.ok s1 ∧
      (∀ i, i < L.PHYSTOP / PGSIZE → s1.ref_counter i = 0) ∧
      FreeList s1 l ∧ l.Nodup ∧
      ∀ p, p ∈ l ↔ (p % PGSIZE = 0 ∧ PGROUNDUP L.kend ≤ p ∧ p < L.PHYSTOP) := by
  obtain ⟨s1, hs1, hfl, hz⟩ := kinit_spec L s hL h0
  exact ⟨s1, _, hs1, hz, hfl, FreeList_nodup s1 _ hfl, mem_kinit_frames L hL⟩

theorem kinit_frames_witness :
    smallLayout.WF ∧ emptyState.freelist = 0 ∧
    ∃ s1 l, kinit smallLayout emptyState = Except.ok s1 ∧
      (∀ i, i < smallLayout.PHYSTOP / PGSIZE → s1.ref_counter i = 0) ∧
      FreeList s1 l ∧ l.Nodup ∧
      ∀ p, p ∈ l ↔ (p % PGSIZE = 0 ∧ PGROUNDUP smallLayout.kend ≤ p ∧
        p < smallLayout.PHYSTOP) :=
  ⟨by decide, rfl, kinit_frames smallLayout emptyState (by decide) rfl⟩

/-- C10: in every state reached from `kinit()` by calls of `kalloc()` and calls
of `kfree(pa)` with `pa` a valid frame address whose count is at least 1, the
free list is a list `l` without repetition, and an aligned frame `p` with
`PGROUNDUP(end) <= p < PHYSTOP` is on it if and only if its reference count
is 0. -/
theorem free_list_invariant (L : Layout) (s0 s : KState) (hL : L.WF)
    (h0 : s0.freelist = 0) (hr : Reachable L s0 s) :
    ∃ l, FreeList s l ∧ l.Nodup ∧
      ∀ p, p % PGSIZE = 0 → PGROUNDUP L.kend ≤ p → p < L.PHYSTOP →
        (p ∈ l ↔ s.ref_counter (p / PGSIZE) = 0) := by
  obtain ⟨l, hfl, hiff⟩ := FreeInv_reachable L s0 s hL h0 hr
  refine ⟨l, hfl, FreeList_nodup s l hfl, ?_⟩
  intro p h1 h2 h3
  exact hiff p ((validFrame_iff_tracked L p).mpr ⟨h1, h2, h3⟩)

theorem free_list_invariant_witness :
    smallLayout.WF ∧ emptyState.freelist = 0 ∧
    Reachable smallLayout emptyState (kalloc bootedState).2 ∧
    ∃ l, FreeList (kalloc bootedState).2 l ∧ l.Nodup ∧
      ∀ p, p % PGSIZE = 0 → PGROUNDUP smallLayout.kend ≤ p → p < smallLayout.PHYSTOP →
        (p ∈ l ↔ (kalloc bootedState).2.ref_counter (p / PGSIZE) = 0) :=
  ⟨by decide, rfl, Reachable.alloc _ (Reachable.boot _ kinit_small),
    free_list_invariant smallLayout emptyState (kalloc bootedState).2 (by decide) rfl
      (Reachable.alloc _ (Reachable.boot _ kinit_small))⟩

/-- C11: take any execution after `kinit()` made of `kalloc()` calls (failed
ones included) and `kfree` calls on frames returned by `kalloc()` and not yet
released.  At every point between calls the frames returned and not yet
released are distinct, and their number is the number of frames `kinit()` put
on the free list minus the length of the current free list; releasing any of
them does not panic. -/
theorem conservation (L : Layout) (s0 si s : KState) (out : List Nat) (hL : L.WF)
    (h0 : s0.freelist = 0) (hk : kinit L s0 = Except.ok si) (hr : Run L si s out) :
    ∃ l0 l, FreeList si l0 ∧ FreeList s l ∧ out.Nodup ∧ l.length ≤ l0.length ∧
      out.length = l0.length - l.length ∧
      ∀ pa, pa ∈ out → isPanic (kfree L s pa) = false := by
  obtain ⟨l0, hi⟩ := RunInv_kinit L s0 si hL h0 hk
  obtain ⟨l, hinv⟩ := RunInv_run L hL _ si s out l0 hi hr
  have hn0 := hi.2.2.2.2
  have hn := hinv.2.2.2.2
  simp only [List.length_nil] at hn0
  refine ⟨l0, l, hi.1, hinv.1, hinv.2.2.1, by omega, by omega, ?_⟩
  intro pa hpa
  have hp := hinv.2.2.2.1 pa hpa
  rw [kfree_free_branch L s pa (Or.inl hp.2) hp.1]
  rfl

theorem conservation_witness :
    smallLayout.WF ∧ emptyState.freelist = 0 ∧
    kinit smallLayout emptyState = Except.ok bootedState ∧
    Run smallLayout bootedState (kalloc bootedState).2 [(kalloc bootedState).1] ∧
    ∃ l0 l, FreeList bootedState l0 ∧ FreeList (kalloc bootedState).2 l ∧
      [(kalloc bootedState).1].Nodup ∧ l.length ≤ l0.length ∧
      [(kalloc bootedState).1].length = l0.length - l.length ∧
      ∀ pa, pa ∈ [(kalloc bootedState).1] →
        isPanic (kfree smallLayout (kalloc bootedState).2 pa) = false :=
  ⟨by decide, rfl, kinit_small, Run.allocOk _ _ Run.start bootedState_first,
    conservation smallLayout emptyState bootedState (kalloc bootedState).2
      [(kalloc bootedState).1] (by decide) rfl kinit_small
      (Run.allocOk _ _ Run.start bootedState_first)⟩

/-- C12 (the code at the failing input): on the small layout the table has the
entries 0 to 7.  Boot with the cell after the table holding -1: `kinit()`
returns normally and leaves that cell alone, and `kfree(0x8000)`, whose
argument is `PHYSTOP`, indexes the table with 8, reads -1 and takes the last
branch: it panics with "ref for page negative". -/
theorem kfree_past_table_takes_last_branch :
    smallLayout.WF ∧ negTailState.freelist = 0 ∧
    kinit smallLayout negTailState = Except.ok negTailBooted ∧
    ¬ (0x8000 / PGSIZE < smallLayout.PHYSTOP / PGSIZE) ∧
    negTailBooted.ref_counter (0x8000 / PGSIZE) = -1 ∧
    kfree smallLayout negTailBooted 0x8000 = Except.error "ref for page negative\n" :=
  ⟨by decide, rfl, kinit_negTail, by decide, negTailBooted_entry,
    kfree_negative_branch smallLayout negTailBooted 0x8000
      (by rw [negTailBooted_entry]; decide)⟩

/-- C13: in every execution after `kinit()` made of `kalloc()` calls and `kfree`
calls on frames that are currently allocated, a successful `kalloc()` returns a
frame that is not among the frames returned earlier and not yet released; so a
frame returned by one `kalloc()` and not released since is never returned by a
later one. -/
theorem kalloc_never_returns_allocated (L : Layout) (s0 si s : KState) (out : List Nat)
    (hL : L.WF) (h0 : s0.freelist = 0) (hk : kinit L s0 = Except.ok si)
    (hr : Run L si s out) (hs : (kalloc s).1 ≠ 0) : (kalloc s).1 ∉ out := by
  obtain ⟨l0, hi⟩ := RunInv_kinit L s0 si hL h0 hk
  obtain ⟨l, hinv⟩ := RunInv_run L hL _ si s out l0 hi hr
  exact (RunInv_allocOk L _ s out l hinv hs).1

theorem kalloc_never_returns_allocated_witness :
    smallLayout.WF ∧ emptyState.freelist = 0 ∧
    kinit smallLayout emptyState = Except.ok bootedState ∧
    Run smallLayout bootedState (kalloc bootedState).2 [(kalloc bootedState).1] ∧
    (kalloc (kalloc bootedState).2).1 ≠ 0 ∧
    (kalloc (kalloc bootedState).2).1 ∉ [(kalloc bootedState).1] :=
  ⟨by decide, rfl, kinit_small, Run.allocOk _ _ Run.start bootedState_first,
    bootedState_second,
    kalloc_never_returns_allocated smallLayout emptyState bootedState (kalloc bootedState).2
      [(kalloc bootedState).1] (by decide) rfl kinit_small
      (Run.allocOk _ _ Run.start bootedState_first) bootedState_second⟩

/-- C14 (counterexample): a failed `kalloc()` writes table entry 0 while it
holds `kmem.lock` and not `ref_counters.lock`, and `kfree` of a frame with one
owner starts with a read of the table entry made with no lock held. -/
theorem table_access_without_table_lock :
    (kallocT emptyState).2 =
      [Event.acquire Lock.kmem, Event.readHead, Event.writeRef 0,
        Event.release Lock.kmem] ∧
    traceOk refAccessLocked Held.free (kallocT emptyState).2 = false ∧
    (kfreeT smallLayout (ownedState 1) 0x2000).2 =
      [Event.readRef 2, Event.fill 0x2000, Event.acquire Lock.kmem, Event.readHead,
        Event.writeLink 0x2000, Event.writeHead, Event.release Lock.kmem,
        Event.acquire Lock.refc, Event.writeRef 2, Event.release Lock.refc] ∧
    traceOk refAccessLocked Held.free (kfreeT smallLayout (ownedState 1) 0x2000).2 = false :=
  ⟨rfl, by decide, rfl, by decide⟩

/-- C14 (amended): every write of a table entry made by `kinit` and by `kfree`
happens while `ref_counters.lock` is held; the write made by `kalloc` happens
while `kmem.lock` is held and `ref_counters.lock` is not; and in the three
functions `ref_counters.lock` is not held at a mutation of the free list nor
at the same time as `kmem.lock`. -/
theorem table_write_locking (L : Layout) (s0 s : KState) (pa : Nat) :
    traceOk refWriteLocked Held.free (kinitT L s0).2 = true ∧
    traceOk refWriteLocked Held.free (kfreeT L s pa).2 = true ∧
    traceOk refWriteUnderKmem Held.free (kallocT s).2 = true ∧
    traceOk refLockApart Held.free (kinitT L s0).2 = true ∧
    traceOk refLockApart Held.free (kfreeT L s pa).2 = true ∧
    traceOk refLockApart Held.free (kallocT s).2 = true :=
  ⟨(kinitT_trace refWriteLocked L s0 rfl rfl (fun _ => rfl) rfl rfl
      (kfreeT_refWriteLocked L)).1,
    kfreeT_refWriteLocked L s pa, kallocT_refWriteUnderKmem s,
    (kinitT_trace refLockApart L s0 rfl rfl (fun _ => rfl) rfl rfl
      (kfreeT_refLockApart L)).1,
    kfreeT_refLockApart L s pa, kallocT_refLockApart s⟩

/-- C15: in the events of every call of `kinit`, `kfree` and `kalloc`, no lock
is acquired while the other is held, the two locks are never both held, and
at the end of the call (normal return or panic) no lock is held. -/
theorem locks_never_nested (L : Layout) (s0 s : KState) (pa : Nat) :
    traceOk noNesting Held.free (kinitT L s0).2 = true ∧
    traceOk noNesting Held.free (kfreeT L s pa).2 = true ∧
    traceOk noNesting Held.free (kallocT s).2 = true ∧
    heldAfter Held.free (kinitT L s0).2 = Held.free ∧
    heldAfter Held.free (kfreeT L s pa).2 = Held.free ∧
    heldAfter Held.free (kallocT s).2 = Held.free :=
  ⟨(kinitT_trace noNesting L s0 rfl rfl (fun _ => rfl) rfl rfl (kfreeT_noNesting L)).1,
    kfreeT_noNesting L s pa, kallocT_noNesting s,
    (kinitT_trace noNesting L s0 rfl rfl (fun _ => rfl) rfl rfl (kfreeT_noNesting L)).2,
    kfreeT_held L s pa, kallocT_held s⟩

/-- C16 (counterexample): in a state where frame `0x2000` has reference count 1
and is also the one node of the free list, every condition of the claim holds,
`kfree(0x2000)` returns normally and the `kalloc()` that follows returns
`0x2000`, but the free list is not what it was: the link of `0x2000`, which
was null, now holds the fill bytes `0x0505050505050505`, so the list is no
longer `[0x2000]`. -/
theorem kfree_then_kalloc_on_listed_frame :
    smallLayout.WF ∧ validFrame smallLayout 0x2000 ∧
    listedOwnedState.ref_counter (0x2000 / PGSIZE) = 1 ∧
    FreeList listedOwnedState [0x2000] ∧
    kfree smallLayout listedOwnedState 0x2000 = Except.ok listedFreedState ∧
    (kalloc listedFreedState).1 = 0x2000 ∧
    (kalloc listedFreedState).2.freelist = 0x2000 ∧
    read64 listedOwnedState.mem 0x2000 = 0 ∧
    read64 (kalloc listedFreedState).2.mem 0x2000 = 0x0505050505050505 ∧
    ¬ FreeList (kalloc listedFreedState).2 [0x2000] :=
  ⟨by decide, by decide, by decide, by decide, rfl, by decide, by decide, by decide,
    by decide, by decide⟩

/-- C16 (amended): for a valid frame address `pa` whose reference count is 1
and which is not on the free list `l`, `kfree(pa)` returns normally and the
`kalloc()` that follows returns `pa`; afterwards the free list is `l` again,
with the same head pointer, and the whole table is as it was before the
`kfree` (so the count of `pa` is 1 again). -/
theorem kfree_then_kalloc (L : Layout) (s : KState) (pa : Nat) (l : List Nat)
    (hL : L.WF) (hv : validFrame L pa) (h1 : s.ref_counter (pa / PGSIZE) = 1)
    (hl : FreeList s l) (hnot : pa ∉ l) :
    ∃ s1, kfree L s pa = Except.ok s1 ∧ (kalloc s1).1 = pa ∧
      FreeList (kalloc s1).2 l ∧ (kalloc s1).2.freelist = s.freelist ∧
      (kalloc s1).2.ref_counter = s.ref_counter ∧
      (kalloc s1).2.ref_counter (pa / PGSIZE) = 1 := by
  have htop := PHYSTOP_le L hL
  obtain ⟨hk0, _, _, _⟩ := hL
  have hv2 := hv
  obtain ⟨ha, hlo, hhi⟩ := hv2
  have hne : pa ≠ 0 := by omega
  have hrc : Function.update (Function.update s.ref_counter (pa / PGSIZE) 0)
      (pa / PGSIZE) 1 = s.ref_counter := update_twice_self _ _ _ _ h1
  refine ⟨_, kfree_free_branch L s pa (Or.inl h1) hv, rfl,
    FreeList_pop _ pa l (FreeList_push s l pa _ hl ha hne (by omega) hnot), ?_, hrc, ?_⟩
  · show (if pa ≠ 0 then read64 (write64 (memset s.mem pa 1 PGSIZE) pa s.freelist) pa
      else pa) = s.freelist
    rw [if_pos hne, read64_write64, Nat.mod_eq_of_lt hl.2.1]
  · show Function.update (Function.update s.ref_counter (pa / PGSIZE) 0)
      (pa / PGSIZE) 1 (pa / PGSIZE) = 1
    rw [Function.update_same]

theorem kfree_then_kalloc_witness :
    smallLayout.WF ∧ validFrame smallLayout 0x3000 ∧
    ownedListState.ref_counter (0x3000 / PGSIZE) = 1 ∧
    FreeList ownedListState [0x2000] ∧ 0x3000 ∉ [0x2000] ∧
    ∃ s1, kfree smallLayout ownedListState 0x3000 = Except.ok s1 ∧ (kalloc s1).1 = 0x3000 ∧
      FreeList (kalloc s1).2 [0x2000] ∧ (kalloc s1).2.freelist = ownedListState.freelist ∧
      (kalloc s1).2.ref_counter = ownedListState.ref_counter ∧
      (kalloc s1).2.ref_counter (0x3000 / PGSIZE) = 1 :=
  ⟨by decide, by decide, by decide, by decide, by decide,
    kfree_then_kalloc smallLayout ownedListState 0x3000 [0x2000] (by decide) (by decide)
      (by decide) (by decide) (by decide)⟩

/-- C17: when the free list is `h :: t`, `h` is a valid frame address and its
reference count is 0, `kalloc()` returns `h`, the `kfree(h)` that follows
returns normally, and afterwards the free list is `h :: t` again (same frames,
same order, same head pointer) and the whole table is as it was before the
`kalloc`. -/
theorem kalloc_then_kfree (L : Layout) (s : KState) (h : Nat) (t : List Nat)
    (hl : FreeList s (h :: t)) (hv : validFrame L h)
    (h0 : s.ref_counter (h / PGSIZE) = 0) :
    (kalloc s).1 = h ∧
    ∃ s2, kfree L (kalloc s).2 h = Except.ok s2 ∧ FreeList s2 (h :: t) ∧
      s2.freelist = s.freelist ∧ s2.ref_counter = s.ref_counter := by
  have hh : s.freelist = h := hl.1.1
  have hne : h ≠ 0 := hl.1.2.1
  have hlt : h < 2 ^ 64 := hh ▸ hl.2.1
  have hal : h % PGSIZE = 0 := hl.2.2 h (List.mem_cons_self h t)
  have hnot : h ∉ t := (List.nodup_cons.mp (FreeList_nodup s _ hl)).1
  have hone : (kalloc s).2.ref_counter (h / PGSIZE) = 1 := by
    show Function.update s.ref_counter (s.freelist / PGSIZE) 1 (h / PGSIZE) = 1
    rw [hh, Function.update_same]
  refine ⟨hh, _, kfree_free_branch L _ h (Or.inl hone) hv,
    FreeList_push _ t h _ (FreeList_pop s h t hl) hal hne hlt hnot, hh.symm, ?_⟩
  show Function.update (Function.update s.ref_counter (s.freelist / PGSIZE) 1)
    (h / PGSIZE) 0 = s.ref_counter
  rw [hh]
  exact update_twice_self _ _ _ _ h0

theorem kalloc_then_kfree_witness :
    FreeList oneFreeState (0x2000 :: []) ∧ validFrame smallLayout 0x2000 ∧
    oneFreeState.ref_counter (0x2000 / PGSIZE) = 0 ∧
    ((kalloc oneFreeState).1 = 0x2000 ∧
    ∃ s2, kfree smallLayout (kalloc oneFreeState).2 0x2000 = Except.ok s2 ∧
      FreeList s2 (0x2000 :: []) ∧
      s2.freelist = oneFreeState.freelist ∧ s2.ref_counter = oneFreeState.ref_counter) :=
  ⟨by decide, by decide, by decide,
    kalloc_then_kfree smallLayout oneFreeState 0x2000 [] (by decide) (by decide) (by decide)⟩

end Kalloc
